import Mathlib

/-!
Verification of the chatbot-router-agents repository.

Text is modelled as `List Char` (Python `str`).  Python's regular-expression
searches over the restricted patterns used by the code are embedded as
explicit decidable scanners; `str.lower()` is modelled with `Char.toLower`
(the inputs under consideration only contain ASCII upper-case letters, the
remaining characters are already lower case).
-/

namespace Chatbot

/-- Python `\d` (ASCII digits; the patterns in the code only meet ASCII). -/
def isDigitCh (c : Char) : Bool := '0' ≤ c && c ≤ '9'

/-- Python `\s` / `str.strip` whitespace, restricted to its ASCII part. -/
def isPySpace (c : Char) : Bool :=
  c = ' ' || c = '\t' || c = '\n' || c = '\r' || c = '\x0b' || c = '\x0c'

/-- Strip a case-sensitive literal from the front of a text:
`some r` when the text starts with the literal, `r` the remainder. -/
def stripCs : List Char → List Char → Option (List Char)
  | [], l => some l
  | _ :: _, [] => none
  | p :: ps, c :: cs => if c = p then stripCs ps cs else none

/-- Strip a case-insensitive literal (given lower case) from the front of a
text, as Python `re.I` does for the ASCII literals used by the code. -/
def stripCi : List Char → List Char → Option (List Char)
  | [], l => some l
  | _ :: _, [] => none
  | p :: ps, c :: cs => if Char.toLower c = p then stripCi ps cs else none

/-- `re.search` of a case-sensitive literal: the literal occurs somewhere. -/
def litOccurs (pat : List Char) : List Char → Bool
  | [] => (stripCs pat []).isSome
  | c :: rest => (stripCs pat (c :: rest)).isSome || litOccurs pat rest

/-- `re.search` of a case-insensitive lower-case literal. -/
def ciOccurs (pat : List Char) : List Char → Bool
  | [] => (stripCi pat []).isSome
  | c :: rest => (stripCi pat (c :: rest)).isSome || ciOccurs pat rest

/-! ## RouterAgent (Generation 1, `src/backend/agents/router_agent.py`)

The seven `math_patterns` are embedded one by one.  A regex search
succeeds iff the pattern matches at some start position; for these
patterns greedy matching without backtracking is complete (digits are
never operators or whitespace), so a plain left-to-right scanner is an
exact embedding. -/

/-- Match `\d+\s*OP\s*\d+` at the head of the text, for an operator class
`ops` (patterns 1-3 of `RouterAgent.math_patterns`). -/
def matchOpAt (ops : List Char) : List Char → Bool
  | [] => false
  | c :: rest =>
    isDigitCh c &&
      (match (rest.dropWhile isDigitCh).dropWhile isPySpace with
        | o :: r3 =>
          decide (o ∈ ops) &&
            (match r3.dropWhile isPySpace with
              | d :: _ => isDigitCh d
              | [] => false)
        | [] => false)

/-- Search `\d+\s*OP\s*\d+` anywhere in the text. -/
def searchOp (ops : List Char) : List Char → Bool
  | [] => false
  | c :: rest => matchOpAt ops (c :: rest) || searchOp ops rest

/-- For `\(\d+.*\)`: a `)` occurs before any newline (`.` excludes `\n`). -/
def closeParenNoNl : List Char → Bool
  | [] => false
  | c :: rest => if c = ')' then true else if c = '\n' then false else closeParenNoNl rest

/-- Match `\(\d+.*\)` at the head of the text (pattern 4). -/
def matchParenAt : List Char → Bool
  | '(' :: d :: rest => isDigitCh d && closeParenNoNl rest
  | _ => false

/-- Search `\(\d+.*\)` anywhere in the text. -/
def searchParen : List Char → Bool
  | [] => false
  | c :: rest => matchParenAt (c :: rest) || searchParen rest

/-- Match `what is \d+` at the head of the text (pattern 6). -/
def matchWhatIsAt (l : List Char) : Bool :=
  match stripCs "what is ".data l with
  | some (d :: _) => isDigitCh d
  | _ => false

/-- Search `what is \d+` anywhere in the text. -/
def searchWhatIs : List Char → Bool
  | [] => false
  | c :: rest => matchWhatIsAt (c :: rest) || searchWhatIs rest

/-- The operator class `[\+\-\*\/x×÷]` of pattern 1. -/
def mathOps : List Char := ['+', '-', '*', '/', 'x', '×', '÷']

/-- `RouterAgent._is_math_query`: lower-case the message and try the seven
`math_patterns` in order. -/
def isMathQuery (message : List Char) : Bool :=
  let m := message.map Char.toLower
  searchOp mathOps m || searchOp ['*'] m || searchOp ['/'] m ||
    searchParen m || litOccurs "how much is".data m || searchWhatIs m ||
    litOccurs "calculate".data m

/-- `RouterAgent.knowledge_keywords`. -/
def knowledgeKeywords : List (List Char) :=
  ["taxa", "fee", "maquininha", "cartão", "card", "infinitepay",
   "pagamento", "payment", "conta", "account", "transferência",
   "transfer", "saldo", "balance", "pix", "boleto"].map String.data

/-- The interrogative words checked by `RouterAgent._is_knowledge_query`. -/
def questionWords : List (List Char) :=
  ["what", "how", "when", "where", "why", "qual", "como", "quando", "onde",
   "por que"].map String.data

/-- `RouterAgent._is_knowledge_query`. -/
def isKnowledgeQuery (message : List Char) : Bool :=
  let m := message.map Char.toLower
  knowledgeKeywords.any (fun k => litOccurs k m) ||
    (questionWords.any (fun w => litOccurs w m) && !isMathQuery message)

structure RouterResult where
  agent : List Char
  reasoning : List Char
  confidence : ℚ
  deriving DecidableEq

/-- `RouterAgent.process`: math patterns first, then knowledge, then the
knowledge default. -/
def routerProcess (message : List Char) : RouterResult :=
  if isMathQuery message then
    ⟨"MathAgent".data, "Detected mathematical expression or calculation request".data, 8/10⟩
  else if isKnowledgeQuery message then
    ⟨"KnowledgeAgent".data, "Detected knowledge query or InfinitePay related question".data, 8/10⟩
  else
    ⟨"KnowledgeAgent".data, "Default routing for general queries".data, 8/10⟩


/-! ## MathAgent (Generation 1, `src/backend/agents/math_agent.py`)

`_extract_math_expression` is embedded directly.  `eval` on the restricted
character class `[0-9+\-*/().\s]` amounts to Python arithmetic-expression
evaluation: integer and float literals, `+ - * / // **`, unary signs and
parentheses.  Numeric values are modelled exactly as rationals tagged with
Python's int/float distinction; a non-integer exponent (whose float value
is irrational in general) is modelled as an evaluation failure, and the
parser runs on a fuel budget well above any reachable recursion depth. -/

/-- Python `str.replace` (case-sensitive, left-to-right, non-overlapping)
with a nonempty needle given as head and tail.  Every recursive step
consumes at least one input character, so a fuel of the input length makes
the fuel cutoff unreachable; recursion is structural on the fuel so that
the kernel can evaluate the function. -/
def replaceAllF (p : Char) (ps repl : List Char) : ℕ → List Char → List Char
  | _, [] => []
  | 0, l => l
  | f + 1, c :: rest =>
    match stripCs (p :: ps) (c :: rest) with
    | some r => repl ++ replaceAllF p ps repl f r
    | none => c :: replaceAllF p ps repl f rest

/-- `str.replace` for a needle that is a plain list. -/
def replaceAllL (pat repl l : List Char) : List Char :=
  match pat with
  | [] => l
  | p :: ps => replaceAllF p ps repl l.length l

/-- The ordered word/symbol-to-operator substitutions of
`_extract_math_expression`. -/
def mathReplacements : List (List Char × List Char) :=
  [("x", "*"), ("×", "*"), ("÷", "/"), ("vezes", "*"), ("mais", "+"),
   ("menos", "-"), ("dividido por", "/"), ("multiplicado por", "*")].map
    (fun pr => (pr.1.data, pr.2.data))

def applyReplacements (l : List Char) : List Char :=
  mathReplacements.foldl (fun m pr => replaceAllL pr.1 pr.2 m) l

/-- The character class `[\d+\-*/().\s]` of the extraction regex (and of
the `_safe_evaluate` validation regex, which is the same class). -/
def isExprCh (c : Char) : Bool :=
  isDigitCh c || c = '+' || c = '-' || c = '*' || c = '/' || c = '(' ||
    c = ')' || c = '.' || isPySpace c

/-- `re.findall(r'[\d+\-*/().\s]+', ...)`: the maximal runs of class
characters, in order (fuel-structural, fuel unreachable from the input
length). -/
def exprRunsF : ℕ → List Char → List (List Char)
  | _, [] => []
  | 0, _ => []
  | f + 1, c :: rest =>
    if isExprCh c then
      ((c :: rest).takeWhile isExprCh) :: exprRunsF f (rest.dropWhile isExprCh)
    else exprRunsF f rest

def exprRuns (l : List Char) : List (List Char) := exprRunsF l.length l

/-- Python `str.strip()` (ASCII whitespace). -/
def pyStrip (l : List Char) : List Char :=
  ((l.dropWhile isPySpace).reverse.dropWhile isPySpace).reverse

/-- Python `max(xs, key=len)`: first element of maximal length wins ties. -/
def maxByLenAux (cur : List Char) : List (List Char) → List Char
  | [] => cur
  | x :: t => maxByLenAux (if cur.length < x.length then x else cur) t

/-- `MathAgent._extract_math_expression`. -/
def extractMathExpression (message : List Char) : List Char :=
  let m := applyReplacements (message.map Char.toLower)
  match exprRuns m with
  | [] => []
  | r :: rs => pyStrip (maxByLenAux r rs)

/-- An exact, unnormalized rational `num / den` with `den > 0` by
construction.  `Rat` itself is avoided inside executable code because its
normalizing arithmetic (via `Nat.gcd`) does not reduce in the kernel. -/
structure Frac where
  num : ℤ
  den : ℤ
  deriving DecidableEq

namespace Frac

/-- The exact value of a fraction. -/
def toRat (a : Frac) : ℚ := (a.num : ℚ) / (a.den : ℚ)

def ofInt (n : ℤ) : Frac := ⟨n, 1⟩

/-- Build a fraction, normalizing the sign into the numerator. -/
def mkNorm (n d : ℤ) : Frac := if d < 0 then ⟨-n, -d⟩ else ⟨n, d⟩

def add (a b : Frac) : Frac := ⟨a.num * b.den + b.num * a.den, a.den * b.den⟩

def sub (a b : Frac) : Frac := ⟨a.num * b.den - b.num * a.den, a.den * b.den⟩

def mul (a b : Frac) : Frac := ⟨a.num * b.num, a.den * b.den⟩

def div (a b : Frac) : Frac := mk (a.num * b.den) (a.den * b.num)

def neg (a : Frac) : Frac := ⟨-a.num, a.den⟩

/-- The exact value is zero. -/
def isZero (a : Frac) : Bool := a.num = 0

/-- The exact value is a whole number (Python `result == int(result)`). -/
def isWhole (a : Frac) : Bool := a.num % a.den = 0

/-- `⌊a⌋` as an integer (`den > 0` by the construction invariant). -/
def floorI (a : Frac) : ℤ := a.num.fdiv a.den

def npow (a : Frac) (k : ℕ) : Frac := ⟨a.num ^ k, a.den ^ k⟩

end Frac

/-- A Python number: exact value plus the int/float distinction. -/
structure PyNum where
  val : Frac
  intV : Bool
  deriving DecidableEq

inductive Tok where
  | num (v : Frac) (intLit : Bool)
  | plus | minus | star | slash | dstar | dslash | lpar | rpar
  deriving DecidableEq

def digitsVal (l : List Char) : ℕ :=
  l.foldl (fun a c => a * 10 + (c.toNat - '0'.toNat)) 0

/-- Lex one maximal digits/dots run as a Python numeric literal. -/
def parseNumRun (run : List Char) : Except (List Char) (Frac × Bool) :=
  let dots := (run.filter (fun c => c = '.')).length
  if dots = 0 then
    if decide (1 < run.length) && (run.head? == some '0') then
      .error "leading zeros in decimal integer literals are not permitted".data
    else .ok (Frac.ofInt (digitsVal run), true)
  else if dots = 1 then
    let ip := run.takeWhile (fun c => c ≠ '.')
    let fp := (run.dropWhile (fun c => c ≠ '.')).tail
    if ip.length = 0 && fp.length = 0 then .error "invalid decimal literal".data
    else .ok (⟨(digitsVal ip : ℤ) * 10 ^ fp.length + (digitsVal fp : ℤ), 10 ^ fp.length⟩, false)
  else .error "invalid decimal literal".data

def isDigitOrDot (c : Char) : Bool := isDigitCh c || c = '.'

/-- Tokenizer for the restricted expression language (fuel-structural). -/
def tokenizeF : ℕ → List Char → Except (List Char) (List Tok)
  | _, [] => .ok []
  | 0, _ => .error "recursion limit".data
  | f + 1, c :: rest =>
    if isPySpace c then tokenizeF f rest
    else if isDigitOrDot c then
      match parseNumRun ((c :: rest).takeWhile isDigitOrDot) with
      | .error e => .error e
      | .ok (v, b) => (tokenizeF f (rest.dropWhile isDigitOrDot)).map (Tok.num v b :: ·)
    else if c = '+' then (tokenizeF f rest).map (Tok.plus :: ·)
    else if c = '-' then (tokenizeF f rest).map (Tok.minus :: ·)
    else if c = '*' then
      if rest.head? == some '*' then (tokenizeF f rest.tail).map (Tok.dstar :: ·)
      else (tokenizeF f rest).map (Tok.star :: ·)
    else if c = '/' then
      if rest.head? == some '/' then (tokenizeF f rest.tail).map (Tok.dslash :: ·)
      else (tokenizeF f rest).map (Tok.slash :: ·)
    else if c = '(' then (tokenizeF f rest).map (Tok.lpar :: ·)
    else if c = ')' then (tokenizeF f rest).map (Tok.rpar :: ·)
    else .error "invalid character".data

def tokenize (l : List Char) : Except (List Char) (List Tok) := tokenizeF l.length l

/-- Python `**` on exact values; a non-integer exponent leaves the rational
model and is reported as a failure. -/
def pyPow (b e : PyNum) : Except (List Char) PyNum :=
  if e.val.isWhole then
    let k : ℤ := e.val.num / e.val.den
    if 0 ≤ k then
      .ok ⟨b.val.npow k.toNat, b.intV && e.intV⟩
    else if b.val.isZero then
      .error "zero cannot be raised to a negative power".data
    else .ok ⟨Frac.mkNorm (b.val.den ^ (-k).toNat) (b.val.num ^ (-k).toNat), false⟩
  else .error "non-integer exponent outside the rational model".data

mutual

def parseExpr : ℕ → List Tok → Except (List Char) (PyNum × List Tok)
  | 0, _ => .error "recursion limit".data
  | f + 1, ts => do
    let (v, ts1) ← parseTerm f ts
    parseAddSub f v ts1

def parseAddSub : ℕ → PyNum → List Tok → Except (List Char) (PyNum × List Tok)
  | 0, _, _ => .error "recursion limit".data
  | f + 1, acc, ts =>
    match ts with
    | Tok.plus :: ts1 => do
      let (v, ts2) ← parseTerm f ts1
      parseAddSub f ⟨acc.val.add v.val, acc.intV && v.intV⟩ ts2
    | Tok.minus :: ts1 => do
      let (v, ts2) ← parseTerm f ts1
      parseAddSub f ⟨acc.val.sub v.val, acc.intV && v.intV⟩ ts2
    | _ => .ok (acc, ts)

def parseTerm : ℕ → List Tok → Except (List Char) (PyNum × List Tok)
  | 0, _ => .error "recursion limit".data
  | f + 1, ts => do
    let (v, ts1) ← parseUnary f ts
    parseMulDiv f v ts1

def parseMulDiv : ℕ → PyNum → List Tok → Except (List Char) (PyNum × List Tok)
  | 0, _, _ => .error "recursion limit".data
  | f + 1, acc, ts =>
    match ts with
    | Tok.star :: ts1 => do
      let (v, ts2) ← parseUnary f ts1
      parseMulDiv f ⟨acc.val.mul v.val, acc.intV && v.intV⟩ ts2
    | Tok.slash :: ts1 => do
      let (v, ts2) ← parseUnary f ts1
      if v.val.isZero then .error "division by zero".data
      else parseMulDiv f ⟨acc.val.div v.val, false⟩ ts2
    | Tok.dslash :: ts1 => do
      let (v, ts2) ← parseUnary f ts1
      if v.val.isZero then .error "integer division or modulo by zero".data
      else parseMulDiv f ⟨Frac.ofInt (acc.val.div v.val).floorI, acc.intV && v.intV⟩ ts2
    | _ => .ok (acc, ts)

def parseUnary : ℕ → List Tok → Except (List Char) (PyNum × List Tok)
  | 0, _ => .error "recursion limit".data
  | f + 1, Tok.minus :: ts => do
    let (v, ts1) ← parseUnary f ts
    .ok (⟨v.val.neg, v.intV⟩, ts1)
  | f + 1, Tok.plus :: ts => do
    let (v, ts1) ← parseUnary f ts
    .ok (v, ts1)
  | f + 1, ts => parsePower f ts

def parsePower : ℕ → List Tok → Except (List Char) (PyNum × List Tok)
  | 0, _ => .error "recursion limit".data
  | f + 1, ts => do
    let (b, ts1) ← parsePrimary f ts
    match ts1 with
    | Tok.dstar :: ts2 => do
      let (e, ts3) ← parseUnary f ts2
      let r ← pyPow b e
      .ok (r, ts3)
    | _ => .ok (b, ts1)

def parsePrimary : ℕ → List Tok → Except (List Char) (PyNum × List Tok)
  | 0, _ => .error "recursion limit".data
  | _ + 1, Tok.num v b :: ts => .ok (⟨v, b⟩, ts)
  | f + 1, Tok.lpar :: ts => do
    let (v, ts1) ← parseExpr f ts
    match ts1 with
    | Tok.rpar :: ts2 => .ok (v, ts2)
    | _ => .error "invalid syntax".data
  | _ + 1, _ => .error "invalid syntax".data

end

/-- Run the parser on a full token list; leftover tokens are a syntax
error, as for `eval`. -/
def evalTokens (ts : List Tok) : Except (List Char) Frac := do
  let (v, rest) ← parseExpr (8 * ts.length + 8) ts
  match rest with
  | [] => pure v.val
  | _ => .error "invalid syntax".data

/-- `MathAgent._safe_evaluate`: drop spaces, validate the character class,
then evaluate; evaluation failures are wrapped like the `ValueError`. -/
def safeEvaluate (expression : List Char) : Except (List Char) Frac :=
  let e := expression.filter (fun c => c ≠ ' ')
  if e.length = 0 || !(e.all isExprCh) then
    .error "Invalid characters in expression".data
  else
    match tokenize e with
    | .error m => .error ("Could not evaluate expression: ".data ++ m)
    | .ok ts =>
      match evalTokens ts with
      | .error m => .error ("Could not evaluate expression: ".data ++ m)
      | .ok v => .ok v

def digitCh (d : ℕ) : Char := Char.ofNat ('0'.toNat + d)

/-- Decimal digits of a natural number, most significant first
(fuel-structural; `n` itself is always enough fuel). -/
def natRenderF : ℕ → ℕ → List Char
  | _, 0 => []
  | 0, _ => []
  | f + 1, n => natRenderF f (n / 10) ++ [digitCh (n % 10)]

/-- Python `str` of a natural number. -/
def natRender (n : ℕ) : List Char := if n = 0 then ['0'] else natRenderF n n

/-- Python `str` of an integer. -/
def intRender (n : ℤ) : List Char :=
  if n < 0 then '-' :: natRender n.natAbs else natRender n.natAbs

def pad2 (n : ℕ) : List Char :=
  if n < 10 then '0' :: natRender n else natRender n

/-- Python `f"{r:.2f}"` on exactly-representable results: round the exact
value to the nearest hundredth (binary-float tie corners are outside the
exact model). -/
def formatTwoDec (r : Frac) : List Char :=
  let n : ℤ := (200 * r.num + r.den).fdiv (2 * r.den)
  (if n < 0 then ['-'] else []) ++ natRender (n.natAbs / 100) ++
    '.' :: pad2 (n.natAbs % 100)

/-- The result formatting of `MathAgent.process`: whole results render via
`str(int(result))`, others via `f"{result:.2f}"`. -/
def formatResult (r : Frac) : List Char :=
  if r.isWhole then intRender (r.num / r.den) else formatTwoDec r

structure MathResult where
  response : List Char
  expression : Option (List Char)
  result : Option Frac
  error : Option (List Char)
  deriving DecidableEq

/-- `MathAgent.process`. -/
def mathProcess (message : List Char) : MathResult :=
  let expression := extractMathExpression message
  if expression.length = 0 then
    ⟨"Desculpe, não consegui identificar uma expressão matemática válida na sua mensagem.".data,
      none, none, some "No valid expression found".data⟩
  else
    match safeEvaluate expression with
    | .ok r =>
      ⟨"O resultado de ".data ++ expression ++ " é ".data ++ formatResult r ++ ['.'],
        some expression, some r, none⟩
    | .error e =>
      ⟨"Desculpe, não consegui realizar esse cálculo. Verifique se a expressão está correta.".data,
        none, none, some e⟩

/-! ## KnowledgeAgent (Generation 1) and the Generation-1 chat endpoint -/

/-- `KnowledgeAgent.knowledge_base` (insertion order preserved). -/
def knowledgeBase : List (List Char × List Char) :=
  [("taxa", "As taxas da InfinitePay variam de acordo com o plano escolhido. Para cartão de débito, a taxa é de 1,79% e para cartão de crédito é de 3,19%."),
   ("maquininha", "A maquininha da InfinitePay aceita cartões de débito e crédito, além de pagamentos por aproximação (contactless) e QR Code."),
   ("pix", "O PIX na InfinitePay é gratuito para recebimentos e tem liquidação imediata, caindo na sua conta na hora."),
   ("conta", "A conta InfinitePay é digital, gratuita e oferece cartão de débito sem anuidade."),
   ("cartão", "O cartão InfinitePay é aceito em milhões de estabelecimentos no Brasil e no exterior, sem anuidade."),
   ("saldo", "Você pode consultar seu saldo pelo app InfinitePay, disponível para iOS e Android."),
   ("transferência", "Transferências via PIX são gratuitas e instantâneas. TED e DOC têm taxas que variam conforme o plano."),
   ("suporte", "O suporte InfinitePay está disponível 24/7 pelo app, WhatsApp ou telefone 0800.")].map
    (fun pr => (pr.1.data, pr.2.data))

/-- `KnowledgeAgent._find_relevant_response`. -/
def findRelevantResponse (message : List Char) : List Char :=
  let m := message.map Char.toLower
  match knowledgeBase.find? (fun pr => litOccurs pr.1 m) with
  | some pr => pr.2
  | none => "Desculpe, não tenho informações específicas sobre isso. Para mais detalhes sobre os produtos e serviços da InfinitePay, consulte nosso site de ajuda ou entre em contato com nosso suporte.".data

structure KnowledgeResult where
  response : List Char
  source : List Char
  confidence : ℚ
  deriving DecidableEq

/-- `KnowledgeAgent.process`. -/
def knowledgeProcessB (message : List Char) : KnowledgeResult :=
  ⟨findRelevantResponse message, "InfinitePay Knowledge Base".data, 7/10⟩

structure WorkflowStep where
  agent : List Char
  decision : Option (List Char)
  deriving DecidableEq

structure BackendChatResponse where
  response : List Char
  source_agent_response : List Char
  agent_workflow : List WorkflowStep
  deriving DecidableEq

/-- The `POST /chat` handler of `src/backend/main.py`.  `execute` is the
template method of the Generation-1 base agent: it adds timing and logs
around `process` and re-raises failures; the embedded `process` functions
are total, so the handler's `500` branch is unreachable and the handler is
a function of the message alone (`user_id`/`conversation_id` only flow
into logs). -/
def backendChat (message : List Char) : BackendChatResponse :=
  let routerResult := routerProcess message
  let chosen := routerResult.agent
  let step1 : WorkflowStep := ⟨"RouterAgent".data, some chosen⟩
  if chosen = "KnowledgeAgent".data then
    let ar := knowledgeProcessB message
    ⟨ar.response, ar.response, [step1, ⟨"KnowledgeAgent".data, none⟩]⟩
  else if chosen = "MathAgent".data then
    let ar := mathProcess message
    ⟨ar.response, ar.response, [step1, ⟨"MathAgent".data, none⟩]⟩
  else
    let ar := knowledgeProcessB message
    ⟨ar.response, ar.response, [step1, ⟨"KnowledgeAgent".data, none⟩]⟩

/-! ## Text sanitization (`src/utils/text_sanitazation.py`)

`re.sub` for the three fixed tag patterns and the three dangerous phrases
is embedded as left-to-right scanners, fuel-structural like the other
scanners.  `SCRIPT_TAG`/`STYLE_TAG` are lazy up to the nearest closing tag
(`.*?` with `re.S`); `HTML_TAG` is `<[^>]+>`, whose greedy interior
reaches exactly the first `>`. -/

/-- Remainder after the first `>`. -/
def afterGt : List Char → Option (List Char)
  | [] => none
  | c :: rest => if c = '>' then some rest else afterGt rest

/-- Match `[^>]+>` right after a `<`: at least one non-`>` character, then
everything up to and including the first `>`. -/
def findTag (l : List Char) : Option (List Char) :=
  match l with
  | [] => none
  | c :: rest => if c = '>' then none else afterGt rest

/-- `<[^>]+>` matches somewhere in the text. -/
def hasTag : List Char → Bool
  | [] => false
  | c :: rest => (decide (c = '<') && (findTag rest).isSome) || hasTag rest

/-- `HTML_TAG.sub("", ·)`. -/
def htmlSubF : ℕ → List Char → List Char
  | _, [] => []
  | 0, l => l
  | f + 1, c :: rest =>
    if c = '<' then
      match findTag rest with
      | some r => htmlSubF f r
      | none => c :: htmlSubF f rest
    else c :: htmlSubF f rest

def htmlSub (l : List Char) : List Char := htmlSubF l.length l

/-- After the `<` of `<\s*NAME[^>]*>`: optional whitespace, the name
case-insensitively, then up to and including the first `>`. -/
def openTag (name l : List Char) : Option (List Char) :=
  match stripCi name (l.dropWhile isPySpace) with
  | none => none
  | some l2 => afterGt l2

/-- After the `<` of `<\s*/\s*NAME\s*>`. -/
def closeTag (name l : List Char) : Option (List Char) :=
  match l.dropWhile isPySpace with
  | c1 :: l1 =>
    if c1 = '/' then
      match stripCi name (l1.dropWhile isPySpace) with
      | some l2 =>
        match l2.dropWhile isPySpace with
        | c2 :: l3 => if c2 = '>' then some l3 else none
        | [] => none
      | none => none
    else none
  | [] => none

/-- Leftmost closing tag (`.*?` is lazy): remainder after it. -/
def findCloseF (name : List Char) : ℕ → List Char → Option (List Char)
  | _, [] => none
  | 0, _ => none
  | f + 1, c :: rest =>
    if c = '<' then
      match closeTag name rest with
      | some r => some r
      | none => findCloseF name f rest
    else findCloseF name f rest

def findClose (name l : List Char) : Option (List Char) := findCloseF name l.length l

/-- `SCRIPT_TAG.sub("", ·)` / `STYLE_TAG.sub("", ·)`: drop every block
from an opening tag to the nearest closing tag; an opening tag without a
closing tag is left in place (the regex fails there and the scan moves
on). -/
def tagBlockSubF (n : Char) (ns : List Char) : ℕ → List Char → List Char
  | _, [] => []
  | 0, l => l
  | f + 1, c :: rest =>
    if c = '<' then
      match openTag (n :: ns) rest with
      | some afterOpen =>
        match findClose (n :: ns) afterOpen with
        | some r => tagBlockSubF n ns f r
        | none => c :: tagBlockSubF n ns f rest
      | none => c :: tagBlockSubF n ns f rest
    else c :: tagBlockSubF n ns f rest

def tagBlockSub (n : Char) (ns l : List Char) : List Char := tagBlockSubF n ns l.length l

/-- Replace every (case-insensitive, left-to-right, non-overlapping)
occurrence of the nonempty pattern by `repl` — `re.sub` for the dangerous
phrases. -/
def blockSubF (p : Char) (ps repl : List Char) : ℕ → List Char → List Char
  | _, [] => []
  | 0, l => l
  | f + 1, c :: rest =>
    match stripCi (p :: ps) (c :: rest) with
    | some r => repl ++ blockSubF p ps repl f r
    | none => c :: blockSubF p ps repl f rest

def blockSub (p : Char) (ps repl l : List Char) : List Char :=
  blockSubF p ps repl l.length l

def blockedMark : List Char := "[blocked]".data

/-- `sanitize_text`: truncate, strip script/style blocks, strip remaining
tags, block the dangerous phrases, trim. -/
def sanitizeText (maxLen : ℕ) (text : List Char) : List Char :=
  let t1 := text.take maxLen
  let t2 := tagBlockSub 's' "cript".data t1
  let t3 := tagBlockSub 's' "tyle".data t2
  let t4 := htmlSub t3
  let t5 := blockSub 'i' "gnore previous instructions".data blockedMark t4
  let t6 := blockSub 's' "ystem prompt".data blockedMark t5
  let t7 := blockSub 'j' "ailbreak".data blockedMark t6
  pyStrip t7

/-! ## RedisService (`src/services/redis_service.py`)

The store is modelled per key.  Real-time expiry is abstracted: a live
key either has no expiry (`none`, Redis `TTL == -1`) or carries one; an
expired key is simply absent. -/

/-- `RedisService.rate_limit_allow` acting on the counter of the caller's
current fixed window: `INCR` (creating the counter at 1 and its TTL), and
admit iff the post-increment count is at most `max_requests`.  Returns
`((allowed, remaining), post-increment counter)`. -/
def rateLimitAllow (count maxRequests : ℕ) : (Bool × ℤ) × ℕ :=
  let current := count + 1
  ((decide (current ≤ maxRequests), max 0 ((maxRequests : ℤ) - current)), current)

/-- The counter value after `k` calls in one window, starting from no
counter for that window. -/
def rlCounterAfter (maxRequests : ℕ) : ℕ → ℕ
  | 0 => 0
  | k + 1 => (rateLimitAllow (rlCounterAfter maxRequests k) maxRequests).2

/-- The `(allowed, remaining)` answer of the `k`-th call (`k ≥ 1`) in one
window started from no counter. -/
def rlNthCall (maxRequests k : ℕ) : Bool × ℤ :=
  (rateLimitAllow (rlCounterAfter maxRequests (k - 1)) maxRequests).1

/-- `RedisService.acquire_lock` on a conversation's lock key: `SET NX PX`
with a fresh token (the generated `uuid4` is a parameter).  Returns
`(returned token, new lock state)`; `some` is an unexpired held lock, an
expired lock is an absent key (`none`). -/
def acquireLock (lock : Option (List Char)) (newTok : List Char) :
    Option (List Char) × Option (List Char) :=
  match lock with
  | some t => (none, some t)
  | none => (some newTok, some newTok)

/-- `RedisService.release_lock`: watch/compare-and-delete — the key is
deleted only while it still holds the caller's token; on any mismatch or
failure the lock is left untouched. -/
def releaseLock (lock : Option (List Char)) (tok : List Char) : Option (List Char) :=
  match lock with
  | some t => if t = tok then none else some t
  | none => none

structure StoredMsg where
  role : List Char
  content : List Char
  deriving DecidableEq

/-- A conversation's message-list key: the list plus its expiry state
(`none` = the key exists with no expiry, Redis `TTL == -1`). -/
structure ConvState where
  messages : List StoredMsg
  expiry : Option ℕ
  deriving DecidableEq

/-- A conversation with no key yet: the first `RPUSH` creates the key,
which then has no expiry. -/
def freshConv : ConvState := ⟨[], none⟩

/-- `RedisService.append_message`: `RPUSH`, then `EXPIRE` only when the
key reports no expiry. -/
def appendMessage (convTtl : ℕ) (st : ConvState) (msg : StoredMsg) : ConvState :=
  let st1 : ConvState := ⟨st.messages ++ [msg], st.expiry⟩
  if st1.expiry = none then ⟨st1.messages, some convTtl⟩ else st1

/-! ## KnowledgeAgent (Generation 2, `src/agents/knowledge_agent.py`)

The vector store and the language model are external services: the
retrieval outcome (the documents, or the exception the call raised) and
the model's completion function are parameters of the embedding. -/

structure RagDoc where
  content : List Char
  source : Option (List Char)
  link : Option (List Char)
  url : Option (List Char)

/-- Python `a or b` over optional metadata strings (a missing key or an
empty string is falsy and falls through). -/
def orFalsy (a : Option (List Char)) (b : List Char) : List Char :=
  match a with
  | some s => if s.length = 0 then b else s
  | none => b

/-- `d.metadata.get("source") or d.metadata.get("link") or
d.metadata.get("url") or "N/A"`. -/
def docSrc (d : RagDoc) : List Char :=
  orFalsy d.source (orFalsy d.link (orFalsy d.url "N/A".data))

/-- The same chain ending in `None`, used for the sources list. -/
def docLinkOpt (d : RagDoc) : Option (List Char) :=
  let s := orFalsy d.source (orFalsy d.link (orFalsy d.url []))
  if s.length = 0 then none else some s

/-- The numbered context blocks `[i] Fonte: <src>\n<stripped content>`. -/
def ragParts : ℕ → List RagDoc → List (List Char)
  | _, [] => []
  | i, d :: ds =>
    ('[' :: natRender i ++ "] Fonte: ".data ++ docSrc d ++ '\n' :: pyStrip d.content) ::
      ragParts (i + 1) ds

/-- `KnowledgeAgent._retrieve_context`: join the blocks with `---`
separators; any exception from the store yields `("", [])`. -/
def retrieveContext (outcome : Except Unit (List RagDoc)) : List Char × List RagDoc :=
  match outcome with
  | .error _ => ([], [])
  | .ok docs => (List.intercalate "\n\n---\n\n".data (ragParts 1 docs), docs)

/-- First-seen-order deduplication of the source links. -/
def dedupeLinks (acc : List (List Char)) : List (Option (List Char)) → List (List Char)
  | [] => acc
  | none :: t => dedupeLinks acc t
  | some l :: t => if l ∈ acc then dedupeLinks acc t else dedupeLinks (acc ++ [l]) t

/-- `KnowledgeAgent.process` (RAG variant), parameterized by the language
model (prompted with the question and the context block). -/
def knowledgeProcessRag (llm : List Char → List Char → List Char)
    (query : List Char) (outcome : Except Unit (List RagDoc)) : List Char :=
  let ctx := retrieveContext outcome
  if ctx.1.length = 0 then
    "Desculpe, não encontrei informações relevantes na base de conhecimento.".data
  else
    let answer := llm query ctx.1
    let links := dedupeLinks [] (ctx.2.map docLinkOpt)
    if links.length = 0 then answer
    else answer ++ "\n\nFontes:\n".data ++
      List.intercalate "\n".data (links.map (fun u => "- ".data ++ u))

/-! ## Generation-2 server (`src/api/server.py`) -/

/-- `RouterAgent.process` (LLM variant): strip and lower-case the raw
completion; anything but the two labels falls back to "knowledge". -/
def gen2RouterProcess (rawCompletion : List Char) : List Char :=
  let r := (pyStrip rawCompletion).map Char.toLower
  if r = "knowledge".data || r = "math".data then r else "knowledge".data

/-- `range(0, len(text), size)` slicing used by the streaming fallbacks;
the chunk size is the successor of the parameter so it is positive. -/
def chunkifyF (m : ℕ) : ℕ → List Char → List (List Char)
  | _, [] => []
  | 0, _ => []
  | f + 1, c :: rest => ((c :: rest).take (m + 1)) :: chunkifyF m f (rest.drop m)

def chunkify (m : ℕ) (l : List Char) : List (List Char) := chunkifyF m l.length l

/-- The external services behind one Generation-2 request. -/
structure Gen2Env where
  routerLLM : List Char → List Char
  mathLLM : List Char → List Char
  knowledgeLLM : List Char → List Char → List Char
  retrieval : List Char → Except Unit (List RagDoc)

/-- `"".join(_agent_stream(agent, message))`: the math agent exposes
`process_stream` (8-character slices of its `process` output), the
knowledge agent falls back to 20-character slices of its `process`
output; joining recovers the full answer either way. -/
def gen2AgentResponse (env : Gen2Env) (isKnowledge : Bool) (message : List Char) : List Char :=
  if isKnowledge then
    (chunkify 19 (knowledgeProcessRag env.knowledgeLLM message (env.retrieval message))).flatten
  else
    (chunkify 7 (env.mathLLM message)).flatten

inductive HttpFailure where
  | rateLimited
  | conversationBusy
  deriving DecidableEq

structure Gen2Request where
  message : List Char
  user_id : List Char
  conversation_id : List Char

structure Gen2ChatResponse where
  response : List Char
  source_agent_response : List Char
  agent_workflow : List WorkflowStep
  deriving DecidableEq

/-- The per-request store state of the Generation-2 server: the caller's
current rate window counter, the conversation's lock key, and the
conversation's message list. -/
structure Gen2State where
  rateCount : ℕ
  lock : Option (List Char)
  conv : ConvState

/-- The `POST /chat` pipeline of the Generation-2 server: sanitize, rate
limit (429 on refusal), lock (409 when busy), append the user message,
route, run the chosen agent through `_agent_stream`, append the assistant
message, release the lock, and answer with the duplicated response text
plus the workflow trace.  The fresh `uuid4` lock token is a parameter;
the user-conversation set and the log stream are write-only side channels
not modelled here. -/
def gen2Chat (env : Gen2Env) (lockTok : List Char) (st : Gen2State) (req : Gen2Request) :
    Except HttpFailure Gen2ChatResponse × Gen2State :=
  let message := sanitizeText 4000 req.message
  let rl := rateLimitAllow st.rateCount 60
  let st1 : Gen2State := ⟨rl.2, st.lock, st.conv⟩
  if !rl.1.1 then (.error .rateLimited, st1)
  else
    match acquireLock st1.lock lockTok with
    | (none, lk) => (.error .conversationBusy, ⟨st1.rateCount, lk, st1.conv⟩)
    | (some tok, lk) =>
      let conv1 := appendMessage 604800 st1.conv ⟨"user".data, message⟩
      let decision := gen2RouterProcess (env.routerLLM message)
      let isKnowledge := decision = "knowledge".data
      let responseFull := gen2AgentResponse env isKnowledge message
      let conv2 := appendMessage 604800 conv1 ⟨"assistant".data, responseFull⟩
      let lk2 := releaseLock lk tok
      (.ok ⟨responseFull, responseFull,
        [⟨"RouterAgent".data,
          some (if isKnowledge then "KnowledgeAgent".data else "MathAgent".data)⟩,
         ⟨(if isKnowledge then "KnowledgeAgent".data else "MathAgent".data), none⟩]⟩,
       ⟨st1.rateCount, lk2, conv2⟩)

end Chatbot

namespace Chatbot

/-! ## Shared string lemma helpers -/

/-- `stripCs` succeeds exactly on texts that start with the literal. -/
theorem stripCs_some_iff : ∀ (pat l r : List Char),
    stripCs pat l = some r ↔ l = pat ++ r := by
  intro pat
  induction pat with
  | nil =>
    intro l r
    constructor
    · intro h
      simpa [stripCs] using h
    · intro h
      simp [stripCs, h]
  | cons p ps ih =>
    intro l r
    cases l with
    | nil => simp [stripCs]
    | cons c cs =>
      by_cases h : c = p
      · subst h
        constructor
        · intro hsome
          have : stripCs ps cs = some r := by simpa [stripCs] using hsome
          simp [(ih cs r).1 this]
        · intro hl
          simp only [List.cons_append, List.cons.injEq, true_and] at hl
          simpa [stripCs] using (ih cs r).2 hl
      · constructor
        · intro hsome
          exfalso
          simp [stripCs, h] at hsome
        · intro hl
          exfalso
          simp only [List.cons_append, List.cons.injEq] at hl
          exact h hl.1

/-- `stripCi` succeeds exactly on texts whose lower-casing starts with the
(lower-case) literal. -/
theorem stripCi_some_iff : ∀ (pat l r : List Char),
    stripCi pat l = some r ↔ ∃ w, l = w ++ r ∧ w.map Char.toLower = pat := by
  intro pat
  induction pat with
  | nil =>
    intro l r
    constructor
    · intro h
      have hl : l = r := by simpa [stripCi] using h
      exact ⟨[], by simp [hl], rfl⟩
    · rintro ⟨w, hl, hw⟩
      have hw0 : w = [] := List.length_eq_zero.1 (by simpa using congrArg List.length hw)
      subst hw0
      simp only [List.nil_append] at hl
      simp [stripCi, hl]
  | cons p ps ih =>
    intro l r
    cases l with
    | nil =>
      constructor
      · intro h
        exfalso
        simp [stripCi] at h
      · rintro ⟨w, hl, hw⟩
        exfalso
        cases w with
        | nil => simp at hw
        | cons a w1 => simp at hl
    | cons c cs =>
      constructor
      · intro hsome
        by_cases h : Char.toLower c = p
        · have hred : stripCi ps cs = some r := by simpa [stripCi, h] using hsome
          rcases (ih cs r).1 hred with ⟨w, hcs, hw⟩
          exact ⟨c :: w, by simp [hcs], by simp [hw, h]⟩
        · exfalso
          simp [stripCi, h] at hsome
      · rintro ⟨w, hl, hw⟩
        cases w with
        | nil => simp at hw
        | cons a w1 =>
          simp only [List.cons_append, List.cons.injEq] at hl
          simp only [List.map_cons, List.cons.injEq] at hw
          rcases hl with ⟨rfl, hcs⟩
          have htl : Char.toLower c = p := hw.1
          have hred : stripCi (p :: ps) (c :: cs) = stripCi ps cs := by
            simp [stripCi, htl]
          rw [hred]
          exact (ih cs r).2 ⟨w1, hcs, hw.2⟩

/-- Texts consumed by a successful `stripCs` are strictly longer than the
remainder when the literal is nonempty. -/
theorem stripCs_length_lt {p : Char} {ps l r : List Char}
    (h : stripCs (p :: ps) l = some r) : r.length < l.length := by
  rw [stripCs_some_iff] at h
  subst h
  simp only [List.length_append, List.length_cons]
  omega

/-- Same for `stripCi`. -/
theorem stripCi_length_lt {p : Char} {ps l r : List Char}
    (h : stripCi (p :: ps) l = some r) : r.length < l.length := by
  rw [stripCi_some_iff] at h
  rcases h with ⟨w, rfl, hw⟩
  have : w.length = ps.length + 1 := by
    simpa using congrArg List.length hw
  simp only [List.length_append]
  omega

/-- C1: the keyword/regex router decides "math" (the `MathAgent`) exactly
when a math pattern matches, and "knowledge" (the `KnowledgeAgent`)
otherwise; together with the five concrete routings of the claim. -/
theorem router_decision_characterization :
    (∀ m : List Char,
        ((routerProcess m).agent = "MathAgent".data ↔ isMathQuery m = true) ∧
        (isMathQuery m = false → (routerProcess m).agent = "KnowledgeAgent".data)) ∧
    (routerProcess "How much is 10 x 5?".data).agent = "MathAgent".data ∧
    (routerProcess "Calculate 100 / 4".data).agent = "MathAgent".data ∧
    (routerProcess "Qual é a taxa da maquininha?".data).agent = "KnowledgeAgent".data ∧
    (routerProcess "O que é PIX?".data).agent = "KnowledgeAgent".data ∧
    (routerProcess "asdkjasdasd".data).agent = "KnowledgeAgent".data := by
  refine ⟨fun m => ?_, by decide, by decide, by decide, by decide, by decide⟩
  unfold routerProcess
  by_cases h : isMathQuery m
  · simp [h]
  · simp [h]
    by_cases hk : isKnowledgeQuery m <;> simp [hk]

/-- C2: the Generation-1 `POST /chat` with message "25 + 15" (the handler
ignores `user_id` beyond logging, and no exception is reachable, so the
request succeeds with HTTP 200) returns workflow
`[{agent: RouterAgent, decision: MathAgent}, {agent: MathAgent}]` and the
Math Agent's answer in both response fields. -/
theorem backend_chat_workflow_25_plus_15 :
    backendChat "25 + 15".data =
      ⟨(mathProcess "25 + 15".data).response, (mathProcess "25 + 15".data).response,
        [⟨"RouterAgent".data, some "MathAgent".data⟩, ⟨"MathAgent".data, none⟩]⟩ ∧
    (backendChat "25 + 15".data).response = "O resultado de 25 + 15 é 40.".data := by
  exact ⟨by decide, by decide⟩

/-- C3: the expression evaluator computes "25 + 15" to the whole number 40
rendered as the integer string "40", and "10/4" to the value 5/2 rendered
with exactly two decimals as "2.50". -/
theorem math_eval_formatting :
    (mathProcess "25 + 15".data).response = "O resultado de 25 + 15 é 40.".data ∧
    (mathProcess "25 + 15".data).result = some (Frac.ofInt 40) ∧
    (mathProcess "10/4".data).result.map Frac.toRat = some (5 / 2 : ℚ) ∧
    (mathProcess "10/4".data).response = "O resultado de 10/4 é 2.50.".data := by
  refine ⟨by decide, by decide, ?_, by decide⟩
  have h : (mathProcess "10/4".data).result = some ⟨10, 4⟩ := by decide
  rw [h]
  have hv : Frac.toRat ⟨10, 4⟩ = (5 / 2 : ℚ) := by
    rw [Frac.toRat]
    norm_num
  simp [hv]

/-- C4: `MathAgent.process` never propagates a failure: with no extractable
expression it answers the fixed "could not identify" apology recording
`No valid expression found`; with a failing evaluation it answers the
fixed "could not perform this calculation" apology recording the failure's
description.  (The function is total, so no failure escapes.) -/
theorem math_process_error_containment :
    ∀ message : List Char,
      ((extractMathExpression message).length = 0 →
        (mathProcess message).response =
          "Desculpe, não consegui identificar uma expressão matemática válida na sua mensagem.".data ∧
        (mathProcess message).error = some "No valid expression found".data) ∧
      (∀ e, safeEvaluate (extractMathExpression message) = .error e →
        (extractMathExpression message).length ≠ 0 →
        (mathProcess message).response =
          "Desculpe, não consegui realizar esse cálculo. Verifique se a expressão está correta.".data ∧
        (mathProcess message).error = some e) := by
  intro message
  constructor
  · intro h0
    simp [mathProcess, h0]
  · intro e herr hne
    simp [mathProcess, hne, herr]

/-- Witness for C4: "hello" has no extractable expression; "5/0" extracts
`5/0` whose evaluation fails with a division by zero. -/
theorem math_process_error_containment_witness :
    ((mathProcess "hello".data).response =
        "Desculpe, não consegui identificar uma expressão matemática válida na sua mensagem.".data ∧
      (mathProcess "hello".data).error = some "No valid expression found".data) ∧
    ((mathProcess "5/0".data).response =
        "Desculpe, não consegui realizar esse cálculo. Verifique se a expressão está correta.".data ∧
      (mathProcess "5/0".data).error =
        some "Could not evaluate expression: division by zero".data) :=
  ⟨(math_process_error_containment "hello".data).1 (by decide),
   (math_process_error_containment "5/0".data).2
      "Could not evaluate expression: division by zero".data (by rfl) (by decide)⟩

/-- The rate-limit counter after `k` calls in one window is `k`. -/
theorem rlCounterAfter_eq (maxRequests k : ℕ) : rlCounterAfter maxRequests k = k := by
  induction k with
  | zero => rfl
  | succ k ih => simp [rlCounterAfter, rateLimitAllow, ih]

/-- C5: a `rate_limit_allow` call is admitted iff the post-increment count
is at most `max_requests`; starting from no counter, the `N`-th call is
admitted with `remaining = 0` and the `(N+1)`-th call in the same window
is refused. -/
theorem rate_limit_boundary : ∀ N : ℕ, 1 ≤ N →
    (∀ c : ℕ, ((rateLimitAllow c N).1.1 = true ↔ c + 1 ≤ N)) ∧
    rlNthCall N N = (true, 0) ∧
    (rlNthCall N (N + 1)).1 = false := by
  intro N hN
  refine ⟨fun c => by simp [rateLimitAllow], ?_, ?_⟩
  · unfold rlNthCall
    rw [rlCounterAfter_eq]
    have h1 : N - 1 + 1 = N := by omega
    simp [rateLimitAllow, h1]
  · unfold rlNthCall
    rw [rlCounterAfter_eq]
    simp [rateLimitAllow]

/-- Witness for C5 at `N = 3`. -/
theorem rate_limit_boundary_witness :
    (1 ≤ 3) ∧ rlNthCall 3 3 = (true, 0) ∧ (rlNthCall 3 (3 + 1)).1 = false :=
  ⟨by decide, (rate_limit_boundary 3 (by decide)).2.1, (rate_limit_boundary 3 (by decide)).2.2⟩

/-- C6: at most one lock per conversation — acquiring over an unexpired
lock returns no token and leaves the held lock; releasing with the
holder's token removes it so the next acquire succeeds; releasing with a
non-matching token leaves the held lock in place. -/
theorem lock_mutual_exclusion :
    ∀ (t tok newTok : List Char),
      ((acquireLock (some t) newTok).1 = none ∧
        (acquireLock (some t) newTok).2 = some t) ∧
      (releaseLock (some t) t = none ∧
        acquireLock (releaseLock (some t) t) newTok = (some newTok, some newTok)) ∧
      (t ≠ tok → releaseLock (some t) tok = some t) := by
  intro t tok newTok
  refine ⟨⟨rfl, rfl⟩, ⟨?_, ?_⟩, fun h => ?_⟩
  · simp [releaseLock]
  · simp [releaseLock, acquireLock]
  · simp [releaseLock, h]

/-- Witness for C6 with distinct concrete tokens. -/
theorem lock_mutual_exclusion_witness :
    ("a".data : List Char) ≠ "b".data ∧
    releaseLock (some "a".data) "b".data = some "a".data :=
  ⟨by decide, (lock_mutual_exclusion "a".data "b".data "c".data).2.2 (by decide)⟩

/-- C9: the first `append_message` of a conversation stores the message
and sets the expiry to the configured TTL; any append to a conversation
whose expiry is already set appends the message and leaves the expiry
unchanged. -/
theorem conversation_ttl_set_once :
    ∀ (convTtl : ℕ) (m : StoredMsg),
      appendMessage convTtl freshConv m = ⟨[m], some convTtl⟩ ∧
      (∀ (st : ConvState) (e : ℕ) (m2 : StoredMsg), st.expiry = some e →
        (appendMessage convTtl st m2).expiry = some e ∧
        (appendMessage convTtl st m2).messages = st.messages ++ [m2]) := by
  intro convTtl m
  constructor
  · rfl
  · intro st e m2 he
    constructor <;> simp [appendMessage, he]

/-- Witness for C9: a second append to a conversation whose TTL was set by
the first append leaves the expiry untouched. -/
theorem conversation_ttl_set_once_witness :
    (appendMessage 604800 freshConv ⟨"user".data, "oi".data⟩).expiry = some 604800 ∧
    (appendMessage 604800 (appendMessage 604800 freshConv ⟨"user".data, "oi".data⟩)
        ⟨"assistant".data, "olá".data⟩).expiry = some 604800 :=
  ⟨by decide,
   ((conversation_ttl_set_once 604800 ⟨"user".data, "oi".data⟩).2
      (appendMessage 604800 freshConv ⟨"user".data, "oi".data⟩) 604800
      ⟨"assistant".data, "olá".data⟩ (by decide)).1⟩

/-- C8: when retrieval yields no context — the call raised, or returned no
documents — the RAG Knowledge Agent answers the fixed "no relevant
information" apology, and the answer does not depend on the language
model (the model is not invoked). -/
theorem knowledge_empty_context_fallback :
    ∀ (llm llm2 : List Char → List Char → List Char) (query : List Char)
      (outcome : Except Unit (List RagDoc)),
      (outcome = .error () ∨ outcome = .ok []) →
      knowledgeProcessRag llm query outcome =
        "Desculpe, não encontrei informações relevantes na base de conhecimento.".data ∧
      knowledgeProcessRag llm query outcome = knowledgeProcessRag llm2 query outcome := by
  intro llm llm2 query outcome h
  rcases h with rfl | rfl
  · exact ⟨rfl, rfl⟩
  · exact ⟨rfl, rfl⟩

/-- Witness for C8 at an empty retrieval result and two distinct models. -/
theorem knowledge_empty_context_fallback_witness :
    ((Except.ok [] : Except Unit (List RagDoc)) = .error () ∨
      (Except.ok [] : Except Unit (List RagDoc)) = .ok []) ∧
    knowledgeProcessRag (fun q c => q ++ c) "oi".data (.ok []) =
      "Desculpe, não encontrei informações relevantes na base de conhecimento.".data :=
  ⟨Or.inr rfl,
   (knowledge_empty_context_fallback (fun q c => q ++ c) (fun _ c => c) "oi".data
      (.ok []) (Or.inr rfl)).1⟩

/-! ## Sanitization idempotence (C7)

The proof follows the pipeline: after `HTML_TAG.sub` the text contains no
`<[^>]+>` match; phrase blocking and trimming preserve that; on tag-free
text the three tag substitutions are the identity.  Phrase blocking
removes all occurrences of its own pattern; later substitutions and
trimming preserve that; on occurrence-free text phrase blocking is the
identity.  Finally trimming is idempotent and the pipeline never grows
the text, so the truncation is also the identity on a second pass. -/

theorem afterGt_some : ∀ (l r : List Char), afterGt l = some r →
    ∃ u, l = u ++ '>' :: r ∧ '>' ∉ u := by
  intro l
  induction l with
  | nil => intro r h; simp [afterGt] at h
  | cons c rest ih =>
    intro r h
    by_cases hc : c = '>'
    · subst hc
      have : rest = r := by simpa [afterGt] using h
      exact ⟨[], by simp [this], by simp⟩
    · have h2 : afterGt rest = some r := by simpa [afterGt, hc] using h
      rcases ih r h2 with ⟨u, hu, hnu⟩
      exact ⟨c :: u, by simp [hu], by simp [hnu, Ne.symm hc]⟩

theorem afterGt_none : ∀ l : List Char, afterGt l = none ↔ '>' ∉ l := by
  intro l
  induction l with
  | nil => simp [afterGt]
  | cons c rest ih =>
    by_cases hc : c = '>'
    · subst hc; simp [afterGt]
    · simp [afterGt, hc, ih, Ne.symm hc]

theorem afterGt_extend {l r b : List Char} (h : afterGt l = some r) :
    afterGt (l ++ b) = some (r ++ b) := by
  rcases afterGt_some l r h with ⟨u, rfl, hnu⟩
  clear h
  induction u with
  | nil => simp [afterGt]
  | cons x u ih =>
    have hx : x ≠ '>' := by intro hx; exact hnu (hx ▸ List.mem_cons_self x u)
    have hnu2 : '>' ∉ u := fun hm => hnu (List.mem_cons_of_mem x hm)
    simpa [afterGt, hx] using ih hnu2

theorem afterGt_length {l r : List Char} (h : afterGt l = some r) :
    r.length < l.length := by
  rcases afterGt_some l r h with ⟨u, rfl, -⟩
  simp only [List.length_append, List.length_cons]
  omega

theorem findTag_some : ∀ (l r : List Char), findTag l = some r →
    ∃ u, l = u ++ '>' :: r ∧ u ≠ [] ∧ '>' ∉ u := by
  intro l r h
  cases l with
  | nil => simp [findTag] at h
  | cons c rest =>
    by_cases hc : c = '>'
    · subst hc; simp [findTag] at h
    · have h2 : afterGt rest = some r := by simpa [findTag, hc] using h
      rcases afterGt_some rest r h2 with ⟨u, rfl, hnu⟩
      exact ⟨c :: u, by simp, by simp, by simp [hnu, Ne.symm hc]⟩

theorem findTag_length {l r : List Char} (h : findTag l = some r) :
    r.length < l.length := by
  rcases findTag_some l r h with ⟨u, rfl, -, -⟩
  simp only [List.length_append, List.length_cons]
  omega

theorem findTag_none_of_no_gt {l : List Char} (h : '>' ∉ l) : findTag l = none := by
  cases l with
  | nil => rfl
  | cons c rest =>
    have hc : c ≠ '>' := fun hc => h (hc ▸ List.mem_cons_self c rest)
    have hr : '>' ∉ rest := fun hm => h (List.mem_cons_of_mem c hm)
    simp [findTag, hc, (afterGt_none rest).2 hr]

theorem findTag_gt_cons (rest : List Char) : findTag ('>' :: rest) = none := by
  simp [findTag]

theorem findTag_none_cases {l : List Char} (h : findTag l = none) :
    l = [] ∨ (∃ r2, l = '>' :: r2) ∨ '>' ∉ l := by
  cases l with
  | nil => exact Or.inl rfl
  | cons c rest =>
    by_cases hc : c = '>'
    · exact Or.inr (Or.inl ⟨rest, by rw [hc]⟩)
    · have h2 : afterGt rest = none := by simpa [findTag, hc] using h
      have hr : '>' ∉ rest := (afterGt_none rest).1 h2
      exact Or.inr (Or.inr (by simp [hc, hr, Ne.symm hc]))

theorem findTag_extend_isSome {l b : List Char} (h : (findTag l).isSome = true) :
    (findTag (l ++ b)).isSome = true := by
  rcases Option.isSome_iff_exists.1 h with ⟨r, hr⟩
  cases l with
  | nil => simp [findTag] at hr
  | cons c rest =>
    by_cases hc : c = '>'
    · subst hc; simp [findTag] at hr
    · have h2 : afterGt rest = some r := by simpa [findTag, hc] using hr
      have := afterGt_extend (b := b) h2
      simp [findTag, hc, this]

/-! ### Unfolding equations for the fuel scanners -/

theorem htmlSubF_nil (f : ℕ) : htmlSubF f [] = [] := by cases f <;> rfl

theorem htmlSubF_zero (l : List Char) : htmlSubF 0 l = l := by cases l <;> rfl

theorem htmlSubF_cons_some {f : ℕ} {rest r : List Char} (h : findTag rest = some r) :
    htmlSubF (f + 1) ('<' :: rest) = htmlSubF f r := by
  simp [htmlSubF, h]

theorem htmlSubF_cons_none {f : ℕ} {rest : List Char} (h : findTag rest = none) :
    htmlSubF (f + 1) ('<' :: rest) = '<' :: htmlSubF f rest := by
  simp [htmlSubF, h]

theorem htmlSubF_cons_other {f : ℕ} {c : Char} {rest : List Char} (h : c ≠ '<') :
    htmlSubF (f + 1) (c :: rest) = c :: htmlSubF f rest := by
  simp [htmlSubF, h]

theorem tagBlockSubF_nil (n : Char) (ns : List Char) (f : ℕ) :
    tagBlockSubF n ns f [] = [] := by cases f <;> rfl

theorem tagBlockSubF_zero (n : Char) (ns l : List Char) :
    tagBlockSubF n ns 0 l = l := by cases l <;> rfl

theorem tagBlockSubF_cons_skip {n : Char} {ns : List Char} {f : ℕ}
    {rest a r : List Char} (h1 : openTag (n :: ns) rest = some a)
    (h2 : findClose (n :: ns) a = some r) :
    tagBlockSubF n ns (f + 1) ('<' :: rest) = tagBlockSubF n ns f r := by
  simp [tagBlockSubF, h1, h2]

theorem tagBlockSubF_cons_noclose {n : Char} {ns : List Char} {f : ℕ}
    {rest a : List Char} (h1 : openTag (n :: ns) rest = some a)
    (h2 : findClose (n :: ns) a = none) :
    tagBlockSubF n ns (f + 1) ('<' :: rest) = '<' :: tagBlockSubF n ns f rest := by
  simp [tagBlockSubF, h1, h2]

theorem tagBlockSubF_cons_noopen {n : Char} {ns : List Char} {f : ℕ}
    {rest : List Char} (h1 : openTag (n :: ns) rest = none) :
    tagBlockSubF n ns (f + 1) ('<' :: rest) = '<' :: tagBlockSubF n ns f rest := by
  simp [tagBlockSubF, h1]

theorem tagBlockSubF_cons_other {n : Char} {ns : List Char} {f : ℕ}
    {c : Char} {rest : List Char} (h : c ≠ '<') :
    tagBlockSubF n ns (f + 1) (c :: rest) = c :: tagBlockSubF n ns f rest := by
  simp [tagBlockSubF, h]

theorem blockSubF_nil (p : Char) (ps repl : List Char) (f : ℕ) :
    blockSubF p ps repl f [] = [] := by cases f <;> rfl

theorem blockSubF_zero (p : Char) (ps repl l : List Char) :
    blockSubF p ps repl 0 l = l := by cases l <;> rfl

theorem blockSubF_cons_some {p : Char} {ps repl : List Char} {f : ℕ}
    {c : Char} {rest r : List Char} (h : stripCi (p :: ps) (c :: rest) = some r) :
    blockSubF p ps repl (f + 1) (c :: rest) = repl ++ blockSubF p ps repl f r := by
  simp [blockSubF, h]

theorem blockSubF_cons_none {p : Char} {ps repl : List Char} {f : ℕ}
    {c : Char} {rest : List Char} (h : stripCi (p :: ps) (c :: rest) = none) :
    blockSubF p ps repl (f + 1) (c :: rest) = c :: blockSubF p ps repl f rest := by
  simp [blockSubF, h]

theorem findCloseF_nil (name : List Char) (f : ℕ) : findCloseF name f [] = none := by
  cases f <;> rfl

theorem findCloseF_cons_hit {name : List Char} {f : ℕ} {rest r : List Char}
    (h : closeTag name rest = some r) :
    findCloseF name (f + 1) ('<' :: rest) = some r := by
  simp [findCloseF, h]

theorem findCloseF_cons_miss {name : List Char} {f : ℕ} {rest : List Char}
    (h : closeTag name rest = none) :
    findCloseF name (f + 1) ('<' :: rest) = findCloseF name f rest := by
  simp [findCloseF, h]

theorem findCloseF_cons_other {name : List Char} {f : ℕ} {c : Char} {rest : List Char}
    (h : c ≠ '<') :
    findCloseF name (f + 1) (c :: rest) = findCloseF name f rest := by
  simp [findCloseF, h]

/-! ### Length bounds for the pipeline stages -/

theorem stripCi_length_le {pat l r : List Char} (h : stripCi pat l = some r) :
    r.length ≤ l.length := by
  rw [stripCi_some_iff] at h
  rcases h with ⟨w, rfl, -⟩
  simp only [List.length_append]
  omega

theorem openTag_length {name l r : List Char} (h : openTag name l = some r) :
    r.length ≤ l.length := by
  unfold openTag at h
  rcases hs : stripCi name (l.dropWhile isPySpace) with - | l2
  · rw [hs] at h; exact absurd h (by simp)
  · rw [hs] at h
    have h1 := (List.dropWhile_suffix isPySpace (l := l)).length_le
    have h2 := stripCi_length_le hs
    have h3 := afterGt_length h
    omega

theorem closeTag_length {name l r : List Char} (h : closeTag name l = some r) :
    r.length < l.length := by
  unfold closeTag at h
  rcases hd : l.dropWhile isPySpace with - | ⟨c1, l1⟩
  · rw [hd] at h; exact absurd h (by simp)
  · rw [hd] at h
    dsimp only at h
    by_cases hc1 : c1 = '/'
    · rw [if_pos hc1] at h
      rcases hs : stripCi name (l1.dropWhile isPySpace) with - | l2
      · rw [hs] at h; exact absurd h (by simp)
      · rw [hs] at h
        dsimp only at h
        rcases hd2 : l2.dropWhile isPySpace with - | ⟨c2, l3⟩
        · rw [hd2] at h; exact absurd h (by simp)
        · rw [hd2] at h
          dsimp only at h
          by_cases hc2 : c2 = '>'
          · rw [if_pos hc2] at h
            have hr : r = l3 := by simpa using h.symm
            subst hr
            have h1 := (List.dropWhile_suffix isPySpace (l := l)).length_le
            have h2 := (List.dropWhile_suffix isPySpace (l := l1)).length_le
            have h3 := stripCi_length_le hs
            have h4 := (List.dropWhile_suffix isPySpace (l := l2)).length_le
            have e1 : (c1 :: l1).length ≤ l.length := hd ▸ h1
            have e2 : (c2 :: r).length ≤ l2.length := hd2 ▸ h4
            simp only [List.length_cons] at e1 e2
            omega
          · rw [if_neg hc2] at h
            exact absurd h (by simp)
    · rw [if_neg hc1] at h
      exact absurd h (by simp)

theorem findCloseF_length : ∀ (name : List Char) (f : ℕ) (l r : List Char),
    findCloseF name f l = some r → r.length < l.length := by
  intro name f
  induction f with
  | zero =>
    intro l r h
    cases l <;> simp [findCloseF] at h
  | succ f ih =>
    intro l r h
    cases l with
    | nil => simp [findCloseF] at h
    | cons c rest =>
      by_cases hc : c = '<'
      · subst hc
        rcases hcl : closeTag name rest with - | r2
        · rw [findCloseF_cons_miss hcl] at h
          have := ih rest r h
          simp only [List.length_cons]
          omega
        · rw [findCloseF_cons_hit hcl] at h
          have hr : r2 = r := by simpa using h
          subst hr
          have := closeTag_length hcl
          simp only [List.length_cons]
          omega
      · rw [findCloseF_cons_other hc] at h
        have := ih rest r h
        simp only [List.length_cons]
        omega

theorem htmlSubF_length : ∀ (f : ℕ) (l : List Char), (htmlSubF f l).length ≤ l.length := by
  intro f
  induction f with
  | zero => intro l; rw [htmlSubF_zero]
  | succ f ih =>
    intro l
    cases l with
    | nil => rw [htmlSubF_nil]
    | cons c rest =>
      by_cases hc : c = '<'
      · subst hc
        rcases hf : findTag rest with - | r
        · rw [htmlSubF_cons_none hf]
          have := ih rest
          simp only [List.length_cons]
          omega
        · rw [htmlSubF_cons_some hf]
          have h1 := ih r
          have h2 := findTag_length hf
          simp only [List.length_cons]
          omega
      · rw [htmlSubF_cons_other hc]
        have := ih rest
        simp only [List.length_cons]
        omega

theorem tagBlockSubF_length : ∀ (n : Char) (ns : List Char) (f : ℕ) (l : List Char),
    (tagBlockSubF n ns f l).length ≤ l.length := by
  intro n ns f
  induction f with
  | zero => intro l; rw [tagBlockSubF_zero]
  | succ f ih =>
    intro l
    cases l with
    | nil => rw [tagBlockSubF_nil]
    | cons c rest =>
      by_cases hc : c = '<'
      · subst hc
        rcases ho : openTag (n :: ns) rest with - | afterOpen
        · rw [tagBlockSubF_cons_noopen ho]
          have := ih rest
          simp only [List.length_cons]
          omega
        · rcases hcl : findClose (n :: ns) afterOpen with - | r
          · rw [tagBlockSubF_cons_noclose ho hcl]
            have := ih rest
            simp only [List.length_cons]
            omega
          · rw [tagBlockSubF_cons_skip ho hcl]
            have h1 := ih r
            have h2 := findCloseF_length (n :: ns) afterOpen.length afterOpen r hcl
            have h3 := openTag_length ho
            simp only [List.length_cons]
            omega
      · rw [tagBlockSubF_cons_other hc]
        have := ih rest
        simp only [List.length_cons]
        omega

/-- A successful `stripCi` consumes exactly the pattern's length. -/
theorem stripCi_length_eq {p : Char} {ps l r : List Char}
    (h : stripCi (p :: ps) l = some r) : l.length = r.length + ps.length + 1 := by
  rw [stripCi_some_iff] at h
  rcases h with ⟨w, rfl, hmap⟩
  have : w.length = ps.length + 1 := by simpa using congrArg List.length hmap
  simp only [List.length_append, this]
  omega

theorem blockSubF_length : ∀ (p : Char) (ps repl : List Char), repl.length ≤ ps.length + 1 →
    ∀ (f : ℕ) (l : List Char), (blockSubF p ps repl f l).length ≤ l.length := by
  intro p ps repl hrepl f
  induction f with
  | zero => intro l; rw [blockSubF_zero]
  | succ f ih =>
    intro l
    cases l with
    | nil => rw [blockSubF_nil]
    | cons c rest =>
      rcases hs : stripCi (p :: ps) (c :: rest) with - | r
      · rw [blockSubF_cons_none hs]
        have := ih rest
        simp only [List.length_cons]
        omega
      · rw [blockSubF_cons_some hs]
        have h1 := ih r
        have h2 := stripCi_length_eq hs
        simp only [List.length_cons] at h2
        simp only [List.length_append, List.length_cons]
        omega

theorem pyStrip_length (l : List Char) : (pyStrip l).length ≤ l.length := by
  unfold pyStrip
  have h1 := (List.dropWhile_suffix isPySpace (l := l)).length_le
  have h2 := (List.dropWhile_suffix isPySpace
    (l := (l.dropWhile isPySpace).reverse)).length_le
  simp only [List.length_reverse] at h2 ⊢
  omega

theorem sanitizeText_length (maxLen : ℕ) (t : List Char) :
    (sanitizeText maxLen t).length ≤ maxLen := by
  have h0 : (t.take maxLen).length ≤ maxLen := by
    simp [List.length_take]
  have kscr : ∀ l : List Char, (tagBlockSub 's' "cript".data l).length ≤ l.length := by
    intro l; unfold tagBlockSub; exact tagBlockSubF_length _ _ _ _
  have ksty : ∀ l : List Char, (tagBlockSub 's' "tyle".data l).length ≤ l.length := by
    intro l; unfold tagBlockSub; exact tagBlockSubF_length _ _ _ _
  have khtml : ∀ l : List Char, (htmlSub l).length ≤ l.length := by
    intro l; unfold htmlSub; exact htmlSubF_length _ _
  have ki : ∀ l : List Char,
      (blockSub 'i' "gnore previous instructions".data blockedMark l).length ≤ l.length := by
    intro l; unfold blockSub; exact blockSubF_length _ _ _ (by decide) _ _
  have ks : ∀ l : List Char,
      (blockSub 's' "ystem prompt".data blockedMark l).length ≤ l.length := by
    intro l; unfold blockSub; exact blockSubF_length _ _ _ (by decide) _ _
  have kj : ∀ l : List Char,
      (blockSub 'j' "ailbreak".data blockedMark l).length ≤ l.length := by
    intro l; unfold blockSub; exact blockSubF_length _ _ _ (by decide) _ _
  unfold sanitizeText
  dsimp only
  exact le_trans (pyStrip_length _) (le_trans (kj _) (le_trans (ks _)
    (le_trans (ki _) (le_trans (khtml _) (le_trans (ksty _) (le_trans (kscr _) h0))))))

/-! ### Tag-freeness: produced by `HTML_TAG.sub`, preserved afterwards -/

theorem htmlSubF_mem : ∀ (f : ℕ) (l : List Char) (x : Char), x ∈ htmlSubF f l → x ∈ l := by
  intro f
  induction f with
  | zero => intro l x h; rwa [htmlSubF_zero] at h
  | succ f ih =>
    intro l x h
    cases l with
    | nil => rw [htmlSubF_nil] at h; simp at h
    | cons c rest =>
      by_cases hc : c = '<'
      · subst hc
        rcases hf : findTag rest with - | r
        · rw [htmlSubF_cons_none hf] at h
          rcases List.mem_cons.1 h with h1 | h1
          · exact List.mem_cons.2 (Or.inl h1)
          · exact List.mem_cons.2 (Or.inr (ih rest x h1))
        · rw [htmlSubF_cons_some hf] at h
          have hx := ih r x h
          rcases findTag_some rest r hf with ⟨u, hu, -, -⟩
          refine List.mem_cons.2 (Or.inr ?_)
          rw [hu]
          simp [hx]
      · rw [htmlSubF_cons_other hc] at h
        rcases List.mem_cons.1 h with h1 | h1
        · exact List.mem_cons.2 (Or.inl h1)
        · exact List.mem_cons.2 (Or.inr (ih rest x h1))

theorem blockSubF_mem : ∀ (p : Char) (ps repl : List Char) (f : ℕ) (l : List Char) (x : Char),
    x ∈ blockSubF p ps repl f l → x ∈ l ∨ x ∈ repl := by
  intro p ps repl f
  induction f with
  | zero => intro l x h; rw [blockSubF_zero] at h; exact Or.inl h
  | succ f ih =>
    intro l x h
    cases l with
    | nil => rw [blockSubF_nil] at h; simp at h
    | cons c rest =>
      rcases hs : stripCi (p :: ps) (c :: rest) with - | r
      · rw [blockSubF_cons_none hs] at h
        rcases List.mem_cons.1 h with h1 | h1
        · exact Or.inl (List.mem_cons.2 (Or.inl h1))
        · rcases ih rest x h1 with h2 | h2
          · exact Or.inl (List.mem_cons.2 (Or.inr h2))
          · exact Or.inr h2
      · rw [blockSubF_cons_some hs] at h
        rcases List.mem_append.1 h with h1 | h1
        · exact Or.inr h1
        · rcases ih r x h1 with h2 | h2
          · refine Or.inl ?_
            rw [stripCi_some_iff] at hs
            rcases hs with ⟨w, hw, -⟩
            rw [hw]
            exact List.mem_append.2 (Or.inr h2)
          · exact Or.inr h2

theorem hasTag_cons (c : Char) (rest : List Char) :
    hasTag (c :: rest) = ((decide (c = '<') && (findTag rest).isSome) || hasTag rest) := rfl

theorem hasTag_tail {c : Char} {rest : List Char} (h : hasTag (c :: rest) = false) :
    hasTag rest = false := by
  rw [hasTag_cons] at h
  exact (Bool.or_eq_false_iff.1 h).2

theorem hasTag_head_none {rest : List Char} (h : hasTag ('<' :: rest) = false) :
    findTag rest = none := by
  rcases hf : findTag rest with - | r
  · rfl
  · exfalso
    rw [hasTag_cons, hf] at h
    simp at h

theorem hasTag_append_no_lt : ∀ (a b : List Char), '<' ∉ a →
    hasTag (a ++ b) = hasTag b := by
  intro a
  induction a with
  | nil => intro b _; rfl
  | cons x t ih =>
    intro b hx
    have hxne : x ≠ '<' := fun hEq => hx (by simp [hEq])
    have ht : '<' ∉ t := fun hm => hx (List.mem_cons_of_mem x hm)
    rw [List.cons_append, hasTag_cons, ih b ht]
    simp [hxne]

theorem hasTag_append_false : ∀ (a b : List Char), hasTag (a ++ b) = false →
    hasTag b = false := by
  intro a
  induction a with
  | nil => intro b h; exact h
  | cons x t ih =>
    intro b h
    rw [List.cons_append] at h
    exact ih b (hasTag_tail h)

theorem hasTag_extend : ∀ (a b : List Char), hasTag a = true → hasTag (a ++ b) = true := by
  intro a
  induction a with
  | nil => intro b h; simp [hasTag] at h
  | cons x t ih =>
    intro b h
    rw [hasTag_cons] at h
    rw [List.cons_append, hasTag_cons]
    rcases Bool.or_eq_true_iff.1 h with h1 | h1
    · have hx := (Bool.and_eq_true_iff.1 h1).1
      have hsome := (Bool.and_eq_true_iff.1 h1).2
      rw [Bool.or_eq_true_iff]
      exact Or.inl (Bool.and_eq_true_iff.2 ⟨hx, findTag_extend_isSome hsome⟩)
    · rw [Bool.or_eq_true_iff]
      exact Or.inr (ih b h1)

theorem hasTag_append_right : ∀ (a b : List Char), hasTag b = true →
    hasTag (a ++ b) = true := by
  intro a
  induction a with
  | nil => intro b h; exact h
  | cons x t ih =>
    intro b h
    rw [List.cons_append, hasTag_cons, Bool.or_eq_true_iff]
    exact Or.inr (ih b h)

theorem hasTag_within {t l : List Char} (hinf : t <:+: l) (h : hasTag t = true) :
    hasTag l = true := by
  rcases hinf with ⟨s, v, rfl⟩
  rw [List.append_assoc]
  exact hasTag_append_right s (t ++ v) (hasTag_extend t v h)

theorem pyStrip_within (l : List Char) : pyStrip l <:+: l := by
  unfold pyStrip
  rcases List.dropWhile_suffix (l := l) isPySpace with ⟨w, hw⟩
  rcases List.dropWhile_suffix (l := (l.dropWhile isPySpace).reverse) isPySpace with ⟨u, hu⟩
  refine ⟨w, u.reverse, ?_⟩
  have h2 : ((l.dropWhile isPySpace).reverse.dropWhile isPySpace).reverse ++ u.reverse =
      l.dropWhile isPySpace := by
    have h3 := congrArg List.reverse hu
    simpa [List.reverse_append] using h3
  rw [List.append_assoc, h2, hw]

theorem pyStrip_no_tag {l : List Char} (h : hasTag l = false) :
    hasTag (pyStrip l) = false := by
  by_contra hcon
  have := hasTag_within (pyStrip_within l) (Bool.of_not_eq_false hcon)
  rw [h] at this
  cases this

theorem htmlSubF_no_tag : ∀ (f : ℕ) (l : List Char), l.length ≤ f →
    hasTag (htmlSubF f l) = false := by
  intro f
  induction f with
  | zero =>
    intro l hl
    have h0 : l = [] := List.length_eq_zero.1 (by omega)
    subst h0
    rw [htmlSubF_nil]
    rfl
  | succ f ih =>
    intro l hl
    cases l with
    | nil => rw [htmlSubF_nil]; rfl
    | cons c rest =>
      simp only [List.length_cons] at hl
      have hrest : rest.length ≤ f := by omega
      by_cases hc : c = '<'
      · subst hc
        rcases hf : findTag rest with - | r
        · rw [htmlSubF_cons_none hf, hasTag_cons, ih rest hrest]
          have hnone : findTag (htmlSubF f rest) = none := by
            rcases findTag_none_cases hf with h0 | ⟨r2, h0⟩ | h0
            · subst h0; rw [htmlSubF_nil]; rfl
            · subst h0
              cases f with
              | zero => simp at hrest
              | succ f2 =>
                rw [htmlSubF_cons_other (by decide : ('>' : Char) ≠ '<')]
                exact findTag_gt_cons _
            · exact findTag_none_of_no_gt (fun hm => h0 (htmlSubF_mem f rest '>' hm))
          rw [hnone]
          simp
        · rw [htmlSubF_cons_some hf]
          have hr : r.length ≤ f := by
            have := findTag_length hf
            omega
          exact ih r hr
      · rw [htmlSubF_cons_other hc, hasTag_cons, ih rest hrest]
        simp [hc]

theorem blockSubF_keeps_no_tag :
    ∀ (p : Char) (ps repl : List Char), '<' ∉ (p :: ps) → '>' ∉ (p :: ps) →
      '<' ∉ repl → '>' ∉ repl →
    ∀ (f : ℕ) (l : List Char), l.length ≤ f → hasTag l = false →
      hasTag (blockSubF p ps repl f l) = false := by
  intro p ps repl hplt hpgt hrlt hrgt f
  induction f with
  | zero =>
    intro l hl h
    have h0 : l = [] := List.length_eq_zero.1 (by omega)
    subst h0
    rw [blockSubF_nil]
    rfl
  | succ f ih =>
    intro l hl h
    cases l with
    | nil => rw [blockSubF_nil]; rfl
    | cons c rest =>
      simp only [List.length_cons] at hl
      have hrest : rest.length ≤ f := by omega
      have htl : hasTag rest = false := hasTag_tail h
      rcases hs : stripCi (p :: ps) (c :: rest) with - | r
      · rw [blockSubF_cons_none hs, hasTag_cons, ih rest hrest htl]
        by_cases hc : c = '<'
        · subst hc
          have hnone0 : findTag rest = none := hasTag_head_none h
          have hnone : findTag (blockSubF p ps repl f rest) = none := by
            rcases findTag_none_cases hnone0 with h0 | ⟨r2, h0⟩ | h0
            · subst h0; rw [blockSubF_nil]; rfl
            · subst h0
              cases f with
              | zero => simp at hrest
              | succ f2 =>
                have hp : p ≠ '>' := fun hp => hpgt (by simp [hp])
                have hsgt : stripCi (p :: ps) ('>' :: r2) = none := by
                  have hlow : Char.toLower '>' = '>' := rfl
                  simp [stripCi, hlow, Ne.symm hp]
                rw [blockSubF_cons_none hsgt]
                exact findTag_gt_cons _
            · apply findTag_none_of_no_gt
              intro hm
              rcases blockSubF_mem p ps repl f rest '>' hm with h2 | h2
              · exact h0 h2
              · exact hrgt h2
          rw [hnone]
          simp
        · simp [hc]
      · rw [blockSubF_cons_some hs, hasTag_append_no_lt repl _ hrlt]
        have hr : hasTag r = false := by
          have hw := hs
          rw [stripCi_some_iff] at hw
          rcases hw with ⟨w, hw, -⟩
          exact hasTag_append_false w r (hw ▸ h)
        have hlen : r.length ≤ f := by
          have := stripCi_length_eq hs
          simp only [List.length_cons] at this
          omega
        exact ih r hlen hr

/-! ### On tag-free text the three tag substitutions are the identity -/

theorem htmlSubF_id : ∀ (f : ℕ) (l : List Char), hasTag l = false →
    htmlSubF f l = l := by
  intro f
  induction f with
  | zero => intro l _; rw [htmlSubF_zero]
  | succ f ih =>
    intro l h
    cases l with
    | nil => rw [htmlSubF_nil]
    | cons c rest =>
      have htl := hasTag_tail h
      by_cases hc : c = '<'
      · subst hc
        rw [htmlSubF_cons_none (hasTag_head_none h), ih rest htl]
      · rw [htmlSubF_cons_other hc, ih rest htl]

theorem tagBlockSubF_id : ∀ (n : Char) (ns : List Char), n ≠ '>' →
    ∀ (f : ℕ) (l : List Char), hasTag l = false → tagBlockSubF n ns f l = l := by
  intro n ns hn f
  induction f with
  | zero => intro l _; rw [tagBlockSubF_zero]
  | succ f ih =>
    intro l h
    cases l with
    | nil => rw [tagBlockSubF_nil]
    | cons c rest =>
      have htl := hasTag_tail h
      by_cases hc : c = '<'
      · subst hc
        have hopen : openTag (n :: ns) rest = none := by
          rcases findTag_none_cases (hasTag_head_none h) with h0 | ⟨r2, h0⟩ | h0
          · subst h0; rfl
          · subst h0
            have hdw : ('>' :: r2).dropWhile isPySpace = '>' :: r2 := by
              rw [List.dropWhile_cons_of_neg (by decide)]
            have hlow : Char.toLower '>' = '>' := rfl
            unfold openTag
            rw [hdw]
            have hstrip : stripCi (n :: ns) ('>' :: r2) = none := by
              simp [stripCi, hlow, Ne.symm hn]
            rw [hstrip]
          · rcases ho : stripCi (n :: ns) (rest.dropWhile isPySpace) with - | l2
            · unfold openTag; rw [ho]
            · unfold openTag
              rw [ho]
              dsimp only
              rw [afterGt_none]
              intro hm
              apply h0
              have hsub : l2 ⊆ rest.dropWhile isPySpace := by
                rw [stripCi_some_iff] at ho
                rcases ho with ⟨w, hw, -⟩
                rw [hw]
                exact fun x hx => List.mem_append.2 (Or.inr hx)
              exact (List.dropWhile_suffix isPySpace).subset (hsub hm)
        rw [tagBlockSubF_cons_noopen hopen, ih rest htl]
      · rw [tagBlockSubF_cons_other hc, ih rest htl]

theorem blockSubF_id : ∀ (p : Char) (ps repl : List Char) (f : ℕ) (l : List Char),
    ciOccurs (p :: ps) l = false → blockSubF p ps repl f l = l := by
  intro p ps repl f
  induction f with
  | zero => intro l _; rw [blockSubF_zero]
  | succ f ih =>
    intro l h
    cases l with
    | nil => rw [blockSubF_nil]
    | cons c rest =>
      have hpair := Bool.or_eq_false_iff.1 h
      have hs : stripCi (p :: ps) (c :: rest) = none := by
        rcases hs0 : stripCi (p :: ps) (c :: rest) with - | r
        · rfl
        · exfalso
          have := hpair.1
          rw [hs0] at this
          simp at this
      rw [blockSubF_cons_none hs, ih rest hpair.2]

/-! ### Occurrence bookkeeping for the dangerous-phrase substitutions -/

theorem append_decomp_short {α : Type} : ∀ (a b w r : List α), a ++ b = w ++ r →
    w.length ≤ a.length → ∃ a2, a = w ++ a2 ∧ r = a2 ++ b := by
  intro a b w r h hlen
  rcases List.append_eq_append_iff.1 h with ⟨a1, hw, hb⟩ | ⟨c1, ha, hr⟩
  · have ha1 : a1 = [] := by
      have hl := congrArg List.length hw
      simp only [List.length_append] at hl
      exact List.length_eq_zero.1 (by omega)
    subst ha1
    refine ⟨[], by simpa using hw.symm, by simpa using hb.symm⟩
  · exact ⟨c1, ha, hr⟩

theorem append_decomp_long {α : Type} : ∀ (a b w r : List α), a ++ b = w ++ r →
    a.length < w.length → ∃ w2, w = a ++ w2 ∧ w2 ≠ [] ∧ b = w2 ++ r := by
  intro a b w r h hlen
  rcases List.append_eq_append_iff.1 h with ⟨a1, hw, hb⟩ | ⟨c1, ha, hr⟩
  · refine ⟨a1, hw, ?_, hb⟩
    intro h0
    subst h0
    have hl := congrArg List.length hw
    simp only [List.length_append, List.length_nil] at hl
    omega
  · exfalso
    have hl := congrArg List.length ha
    simp only [List.length_append] at hl
    omega

theorem stripCi_isSome_extend {pat a b : List Char} (h : (stripCi pat a).isSome = true) :
    (stripCi pat (a ++ b)).isSome = true := by
  rcases Option.isSome_iff_exists.1 h with ⟨r, hr⟩
  rw [stripCi_some_iff] at hr
  rcases hr with ⟨w, hw, hmap⟩
  have hsome : stripCi pat (a ++ b) = some (r ++ b) := by
    rw [stripCi_some_iff]
    exact ⟨w, by rw [hw, List.append_assoc], hmap⟩
  rw [hsome]
  rfl

theorem stripCi_isSome_of_append_left {pat a b : List Char}
    (h : (stripCi pat (a ++ b)).isSome = true) (hlen : pat.length ≤ a.length) :
    (stripCi pat a).isSome = true := by
  rcases Option.isSome_iff_exists.1 h with ⟨r, hr⟩
  rw [stripCi_some_iff] at hr
  rcases hr with ⟨w, hw, hmap⟩
  have hwlen : w.length = pat.length := by simpa using congrArg List.length hmap
  rcases append_decomp_short a b w r hw (by omega) with ⟨a2, ha, -⟩
  have hsome : stripCi pat a = some a2 := by
    rw [stripCi_some_iff]
    exact ⟨w, ha, hmap⟩
  rw [hsome]
  rfl

theorem ciOccurs_cons (pat : List Char) (c : Char) (rest : List Char) :
    ciOccurs pat (c :: rest) = ((stripCi pat (c :: rest)).isSome || ciOccurs pat rest) := rfl

theorem ciOccurs_tail {pat : List Char} {c : Char} {rest : List Char}
    (h : ciOccurs pat (c :: rest) = false) : ciOccurs pat rest = false := by
  rw [ciOccurs_cons] at h
  exact (Bool.or_eq_false_iff.1 h).2

theorem ciOccurs_head_false {pat : List Char} {c : Char} {rest : List Char}
    (h : ciOccurs pat (c :: rest) = false) : (stripCi pat (c :: rest)).isSome = false := by
  rw [ciOccurs_cons] at h
  exact (Bool.or_eq_false_iff.1 h).1

theorem ciOccurs_of_head {pat : List Char} {c : Char} {rest : List Char}
    (h : (stripCi pat (c :: rest)).isSome = true) : ciOccurs pat (c :: rest) = true := by
  rw [ciOccurs_cons, h]
  rfl

theorem ciOccurs_extend {p : Char} {ps : List Char} : ∀ (a b : List Char),
    ciOccurs (p :: ps) a = true → ciOccurs (p :: ps) (a ++ b) = true := by
  intro a
  induction a with
  | nil => intro b h; cases h
  | cons x t ih =>
    intro b h
    rw [List.cons_append, ciOccurs_cons]
    rw [ciOccurs_cons] at h
    rcases Bool.or_eq_true_iff.1 h with h1 | h1
    · have := stripCi_isSome_extend (b := b) h1
      rw [List.cons_append] at this
      rw [this]
      rfl
    · rw [ih b h1]
      simp

theorem ciOccurs_append_right {p : Char} {ps : List Char} : ∀ (a b : List Char),
    ciOccurs (p :: ps) b = true → ciOccurs (p :: ps) (a ++ b) = true := by
  intro a
  induction a with
  | nil => intro b h; exact h
  | cons x t ih =>
    intro b h
    rw [List.cons_append, ciOccurs_cons, ih b h]
    simp

theorem ciOccurs_of_suffix {p : Char} {ps s l : List Char} (hs : s <:+ l)
    (h : ciOccurs (p :: ps) s = true) : ciOccurs (p :: ps) l = true := by
  rcases hs with ⟨t, rfl⟩
  exact ciOccurs_append_right t s h

theorem ciOccurs_within {p : Char} {ps s l : List Char} (hs : s <:+: l)
    (h : ciOccurs (p :: ps) s = true) : ciOccurs (p :: ps) l = true := by
  rcases hs with ⟨u, v, rfl⟩
  rw [List.append_assoc]
  exact ciOccurs_append_right u (s ++ v) (ciOccurs_extend s v h)

theorem ciOccurs_append_cases {p : Char} {ps : List Char} : ∀ (a b : List Char),
    ciOccurs (p :: ps) (a ++ b) = true →
    (∃ s, s <:+ a ∧ s ≠ [] ∧ (stripCi (p :: ps) (s ++ b)).isSome = true) ∨
      ciOccurs (p :: ps) b = true := by
  intro a
  induction a with
  | nil => intro b h; exact Or.inr h
  | cons x t ih =>
    intro b h
    rw [List.cons_append, ciOccurs_cons] at h
    rcases Bool.or_eq_true_iff.1 h with h1 | h1
    · refine Or.inl ⟨x :: t, List.suffix_refl _, by simp, ?_⟩
      rw [List.cons_append]
      exact h1
    · rcases ih b h1 with ⟨s, hsfx, hne, hsome⟩ | h2
      · exact Or.inl ⟨s, hsfx.trans (List.suffix_cons x t), hne, hsome⟩
      · exact Or.inr h2

theorem blocked_suffix_mem : ∀ s : List Char, s <:+ blockedMark → s ≠ [] → ']' ∈ s := by
  intro s hs hne
  have hmem : s ∈ blockedMark.tails := (List.mem_tails s blockedMark).2 hs
  have hall : ∀ x ∈ blockedMark.tails, x = [] ∨ ']' ∈ x := by decide
  rcases hall s hmem with h0 | h0
  · exact absurd h0 hne
  · exact h0

/-- An occurrence of the pattern in `"[blocked]" ++ X` that is not an
occurrence in `X` would have to start inside the marker, hence either lie
inside it or cover its final `]`. -/
theorem occurs_into_blocked {p : Char} {ps X : List Char}
    (hno : ciOccurs (p :: ps) blockedMark = false) (hrb : ']' ∉ (p :: ps))
    (h : ciOccurs (p :: ps) (blockedMark ++ X) = true) : ciOccurs (p :: ps) X = true := by
  rcases ciOccurs_append_cases blockedMark X h with ⟨s, hsfx, hne, hsome⟩ | h2
  · exfalso
    by_cases hlen : (p :: ps).length ≤ s.length
    · have h1 := stripCi_isSome_of_append_left hsome hlen
      have h2 : ciOccurs (p :: ps) s = true := by
        cases s with
        | nil => exact absurd rfl hne
        | cons c t => exact ciOccurs_of_head h1
      have := ciOccurs_of_suffix hsfx h2
      rw [hno] at this
      cases this
    · push_neg at hlen
      rcases Option.isSome_iff_exists.1 hsome with ⟨r, hr⟩
      rw [stripCi_some_iff] at hr
      rcases hr with ⟨w, hw, hmap⟩
      have hwlen : w.length = ps.length + 1 := by simpa using congrArg List.length hmap
      simp only [List.length_cons] at hlen
      rcases append_decomp_long s X w r hw (by omega) with ⟨w2, hw2, -, -⟩
      have hmem : ']' ∈ w := by
        rw [hw2]
        exact List.mem_append.2 (Or.inl (blocked_suffix_mem s hsfx hne))
      have hin : ']' ∈ (p :: ps) := by
        have hm := List.mem_map_of_mem Char.toLower hmem
        rw [hmap] at hm
        simpa using hm
      exact hrb hin
  · exact h2

/-- One-step structure of a phrase substitution: either nothing was
replaced, or the output is an untouched prefix, the marker, and a rest. -/
theorem blockSubF_shape : ∀ (q : Char) (qs : List Char) (f : ℕ) (l : List Char),
    blockSubF q qs blockedMark f l = l ∨
      ∃ u w r X, l = u ++ w ++ r ∧ w.map Char.toLower = q :: qs ∧
        blockSubF q qs blockedMark f l = u ++ blockedMark ++ X := by
  intro q qs f
  induction f with
  | zero => intro l; left; rw [blockSubF_zero]
  | succ f ih =>
    intro l
    cases l with
    | nil => left; rw [blockSubF_nil]
    | cons c rest =>
      rcases hs : stripCi (q :: qs) (c :: rest) with - | r
      · rcases ih rest with h1 | ⟨u, w, r, X, hrest, hmap, hout⟩
        · left
          rw [blockSubF_cons_none hs, h1]
        · right
          refine ⟨c :: u, w, r, X, by simp [hrest], hmap, ?_⟩
          rw [blockSubF_cons_none hs, hout]
          simp
      · right
        have hw := hs
        rw [stripCi_some_iff] at hw
        rcases hw with ⟨w, hw, hmap⟩
        exact ⟨[], w, r, blockSubF q qs blockedMark f r, by simpa using hw, hmap,
          by rw [blockSubF_cons_some hs]; simp⟩

/-- A pattern match at the head of a transformed tail transfers to the
original tail (the pattern cannot reach into an inserted marker without
containing `[`). -/
theorem head_start_transfer {p : Char} {ps : List Char} (hlb : '[' ∉ (p :: ps))
    (q : Char) (qs : List Char) (f : ℕ) (c : Char) (rest : List Char)
    (hsome : (stripCi (p :: ps) (c :: blockSubF q qs blockedMark f rest)).isSome = true) :
    (stripCi (p :: ps) (c :: rest)).isSome = true := by
  rcases blockSubF_shape q qs f rest with hB | ⟨u, w, r, X, hrest, -, hB⟩
  · rwa [hB] at hsome
  · rw [hB] at hsome
    by_cases hlen : (p :: ps).length ≤ (c :: u).length
    · have h1 : (stripCi (p :: ps) ((c :: u) ++ (blockedMark ++ X))).isSome = true := by
        simpa using hsome
      have h2 := stripCi_isSome_of_append_left h1 hlen
      have h3 := stripCi_isSome_extend (b := w ++ r) h2
      have hcr : (c :: u) ++ (w ++ r) = c :: rest := by simp [hrest]
      rwa [hcr] at h3
    · exfalso
      push_neg at hlen
      rcases Option.isSome_iff_exists.1 hsome with ⟨r2, hr2⟩
      rw [stripCi_some_iff] at hr2
      rcases hr2 with ⟨w2, hw2, hmap2⟩
      have hwlen : w2.length = ps.length + 1 := by simpa using congrArg List.length hmap2
      have hw2b : (c :: u) ++ (blockedMark ++ X) = w2 ++ r2 := by simpa using hw2
      simp only [List.length_cons] at hlen
      rcases append_decomp_long (c :: u) (blockedMark ++ X) w2 r2 hw2b
          (by simp only [List.length_cons]; omega) with ⟨w3, hw3, hne3, hb3⟩
      have hbm : blockedMark = '[' :: "blocked]".data := by decide
      have hhead : ∃ t2, w3 = '[' :: t2 := by
        cases w3 with
        | nil => exact absurd rfl hne3
        | cons a t =>
          rw [hbm, List.cons_append] at hb3
          injection hb3 with h1 h2
          exact ⟨t, by rw [← h1]⟩
      rcases hhead with ⟨t, rfl⟩
      have hm1 : '[' ∈ w2 := by
        rw [hw3]
        simp
      have hin : '[' ∈ (p :: ps) := by
        have hm := List.mem_map_of_mem Char.toLower hm1
        rw [hmap2] at hm
        simpa using hm
      exact hlb hin

/-- After a phrase substitution its own pattern no longer occurs. -/
theorem blockSubF_no_occurs {p : Char} {ps : List Char}
    (hno : ciOccurs (p :: ps) blockedMark = false)
    (hlb : '[' ∉ (p :: ps)) (hrb : ']' ∉ (p :: ps)) :
    ∀ (f : ℕ) (l : List Char), l.length ≤ f →
      ciOccurs (p :: ps) (blockSubF p ps blockedMark f l) = false := by
  intro f
  induction f with
  | zero =>
    intro l hl
    have h0 : l = [] := List.length_eq_zero.1 (by omega)
    subst h0
    rw [blockSubF_nil]
    rfl
  | succ f ih =>
    intro l hl
    cases l with
    | nil => rw [blockSubF_nil]; rfl
    | cons c rest =>
      simp only [List.length_cons] at hl
      have hrest : rest.length ≤ f := by omega
      rcases hs : stripCi (p :: ps) (c :: rest) with - | r
      · rw [blockSubF_cons_none hs, ciOccurs_cons]
        refine Bool.or_eq_false_iff.2 ⟨?_, ih rest hrest⟩
        rcases hv : (stripCi (p :: ps) (c :: blockSubF p ps blockedMark f rest)).isSome with - | -
        · rfl
        · exfalso
          have := head_start_transfer hlb p ps f c rest hv
          rw [hs] at this
          cases this
      · rw [blockSubF_cons_some hs]
        rcases hv : ciOccurs (p :: ps) (blockedMark ++ blockSubF p ps blockedMark f r) with - | -
        · rfl
        · exfalso
          have hX := occurs_into_blocked hno hrb hv
          have hlen : r.length ≤ f := by
            have := stripCi_length_eq hs
            simp only [List.length_cons] at this
            omega
          rw [ih r hlen] at hX
          cases hX

/-- A later phrase substitution cannot create an occurrence of an earlier
(occurrence-free) pattern. -/
theorem blockSubF_keeps_no_occurs {p : Char} {ps : List Char}
    (hno : ciOccurs (p :: ps) blockedMark = false)
    (hlb : '[' ∉ (p :: ps)) (hrb : ']' ∉ (p :: ps))
    (q : Char) (qs : List Char) :
    ∀ (f : ℕ) (l : List Char), l.length ≤ f → ciOccurs (p :: ps) l = false →
      ciOccurs (p :: ps) (blockSubF q qs blockedMark f l) = false := by
  intro f
  induction f with
  | zero =>
    intro l hl h
    have h0 : l = [] := List.length_eq_zero.1 (by omega)
    subst h0
    rw [blockSubF_nil]
    rfl
  | succ f ih =>
    intro l hl h
    cases l with
    | nil => rw [blockSubF_nil]; rfl
    | cons c rest =>
      simp only [List.length_cons] at hl
      have hrest : rest.length ≤ f := by omega
      rcases hs : stripCi (q :: qs) (c :: rest) with - | r
      · rw [blockSubF_cons_none hs, ciOccurs_cons]
        refine Bool.or_eq_false_iff.2 ⟨?_, ih rest hrest (ciOccurs_tail h)⟩
        rcases hv : (stripCi (p :: ps) (c :: blockSubF q qs blockedMark f rest)).isSome with - | -
        · rfl
        · exfalso
          have := head_start_transfer hlb q qs f c rest hv
          rw [ciOccurs_head_false h] at this
          cases this
      · rw [blockSubF_cons_some hs]
        rcases hv : ciOccurs (p :: ps) (blockedMark ++ blockSubF q qs blockedMark f r) with - | -
        · rfl
        · exfalso
          have hX := occurs_into_blocked hno hrb hv
          have hr : ciOccurs (p :: ps) r = false := by
            rcases hocc : ciOccurs (p :: ps) r with - | -
            · rfl
            · exfalso
              have hw := hs
              rw [stripCi_some_iff] at hw
              rcases hw with ⟨w, hw, -⟩
              have : ciOccurs (p :: ps) (c :: rest) = true :=
                ciOccurs_of_suffix ⟨w, hw.symm⟩ hocc
              rw [h] at this
              cases this
          have hlen : r.length ≤ f := by
            have := stripCi_length_eq hs
            simp only [List.length_cons] at this
            omega
          rw [ih r hlen hr] at hX
          cases hX

theorem pyStrip_no_occurs {p : Char} {ps l : List Char}
    (h : ciOccurs (p :: ps) l = false) : ciOccurs (p :: ps) (pyStrip l) = false := by
  rcases hv : ciOccurs (p :: ps) (pyStrip l) with - | -
  · rfl
  · exfalso
    have := ciOccurs_within (pyStrip_within l) hv
    rw [h] at this
    cases this

/-! ### Trim idempotence and assembly of the idempotence theorem -/

theorem dropWhile_dropWhile (p : Char → Bool) : ∀ l : List Char,
    List.dropWhile p (List.dropWhile p l) = List.dropWhile p l := by
  intro l
  induction l with
  | nil => rfl
  | cons c t ih =>
    by_cases hc : p c = true
    · rw [List.dropWhile_cons_of_pos hc]
      exact ih
    · rw [List.dropWhile_cons_of_neg hc, List.dropWhile_cons_of_neg hc]

theorem dropWhile_head_not_mem (p : Char → Bool) : ∀ (l : List Char) (c : Char)
    (t : List Char), List.dropWhile p l = c :: t → p c = false := by
  intro l
  induction l with
  | nil => intro c t h; simp at h
  | cons x xs ih =>
    intro c t h
    by_cases hx : p x = true
    · rw [List.dropWhile_cons_of_pos hx] at h
      exact ih c t h
    · rw [List.dropWhile_cons_of_neg hx] at h
      injection h with h1 h2
      rw [← h1]
      simpa using hx

theorem pyStrip_idem (l : List Char) : pyStrip (pyStrip l) = pyStrip l := by
  unfold pyStrip
  have h1 : (((l.dropWhile isPySpace).reverse.dropWhile isPySpace).reverse).dropWhile
      isPySpace = ((l.dropWhile isPySpace).reverse.dropWhile isPySpace).reverse := by
    cases hRrev : ((l.dropWhile isPySpace).reverse.dropWhile isPySpace).reverse with
    | nil => rfl
    | cons c t =>
      rcases List.dropWhile_suffix (l := (l.dropWhile isPySpace).reverse) isPySpace with
        ⟨u, hu⟩
      have hAeq : ((l.dropWhile isPySpace).reverse.dropWhile isPySpace).reverse ++
          u.reverse = l.dropWhile isPySpace := by
        have h3 := congrArg List.reverse hu
        simpa [List.reverse_append] using h3
      have hdw : l.dropWhile isPySpace = c :: (t ++ u.reverse) := by
        rw [← hAeq, hRrev]
        simp
      have hc : isPySpace c = false := dropWhile_head_not_mem isPySpace l c _ hdw
      rw [List.dropWhile_cons_of_neg (by simp [hc])]
  rw [h1, List.reverse_reverse, dropWhile_dropWhile]

theorem tagBlockSub_id {n : Char} {ns l : List Char} (hn : n ≠ '>')
    (h : hasTag l = false) : tagBlockSub n ns l = l :=
  tagBlockSubF_id n ns hn l.length l h

theorem htmlSub_id {l : List Char} (h : hasTag l = false) : htmlSub l = l :=
  htmlSubF_id l.length l h

theorem blockSub_id {p : Char} {ps repl l : List Char}
    (h : ciOccurs (p :: ps) l = false) : blockSub p ps repl l = l :=
  blockSubF_id p ps repl l.length l h

theorem htmlSub_no_tag (l : List Char) : hasTag (htmlSub l) = false :=
  htmlSubF_no_tag l.length l le_rfl

theorem blockSub_keeps_no_tag {p : Char} {ps repl : List Char}
    (h1 : '<' ∉ (p :: ps)) (h2 : '>' ∉ (p :: ps)) (h3 : '<' ∉ repl) (h4 : '>' ∉ repl)
    {l : List Char} (h : hasTag l = false) : hasTag (blockSub p ps repl l) = false :=
  blockSubF_keeps_no_tag p ps repl h1 h2 h3 h4 l.length l le_rfl h

theorem blockSub_no_occurs {p : Char} {ps : List Char}
    (hno : ciOccurs (p :: ps) blockedMark = false)
    (hlb : '[' ∉ (p :: ps)) (hrb : ']' ∉ (p :: ps)) (l : List Char) :
    ciOccurs (p :: ps) (blockSub p ps blockedMark l) = false :=
  blockSubF_no_occurs hno hlb hrb l.length l le_rfl

theorem blockSub_keeps_no_occurs {p : Char} {ps : List Char}
    (hno : ciOccurs (p :: ps) blockedMark = false)
    (hlb : '[' ∉ (p :: ps)) (hrb : ']' ∉ (p :: ps)) (q : Char) (qs : List Char)
    {l : List Char} (h : ciOccurs (p :: ps) l = false) :
    ciOccurs (p :: ps) (blockSub q qs blockedMark l) = false :=
  blockSubF_keeps_no_occurs hno hlb hrb q qs l.length l le_rfl h

theorem sanitizeText_no_tag (maxLen : ℕ) (t : List Char) :
    hasTag (sanitizeText maxLen t) = false := by
  unfold sanitizeText
  dsimp only
  apply pyStrip_no_tag
  apply blockSub_keeps_no_tag (by decide) (by decide) (by decide) (by decide)
  apply blockSub_keeps_no_tag (by decide) (by decide) (by decide) (by decide)
  apply blockSub_keeps_no_tag (by decide) (by decide) (by decide) (by decide)
  exact htmlSub_no_tag _

theorem sanitizeText_no_first (maxLen : ℕ) (t : List Char) :
    ciOccurs ('i' :: "gnore previous instructions".data) (sanitizeText maxLen t) = false := by
  unfold sanitizeText
  dsimp only
  apply pyStrip_no_occurs
  apply blockSub_keeps_no_occurs (by decide) (by decide) (by decide)
  apply blockSub_keeps_no_occurs (by decide) (by decide) (by decide)
  exact blockSub_no_occurs (by decide) (by decide) (by decide) _

theorem sanitizeText_no_second (maxLen : ℕ) (t : List Char) :
    ciOccurs ('s' :: "ystem prompt".data) (sanitizeText maxLen t) = false := by
  unfold sanitizeText
  dsimp only
  apply pyStrip_no_occurs
  apply blockSub_keeps_no_occurs (by decide) (by decide) (by decide)
  exact blockSub_no_occurs (by decide) (by decide) (by decide) _

theorem sanitizeText_no_third (maxLen : ℕ) (t : List Char) :
    ciOccurs ('j' :: "ailbreak".data) (sanitizeText maxLen t) = false := by
  unfold sanitizeText
  dsimp only
  apply pyStrip_no_occurs
  exact blockSub_no_occurs (by decide) (by decide) (by decide) _

theorem sanitizeText_stripped (maxLen : ℕ) (t : List Char) :
    pyStrip (sanitizeText maxLen t) = sanitizeText maxLen t := by
  unfold sanitizeText
  dsimp only
  exact pyStrip_idem _

/-- C7: sanitization with its default maximum length (4000) is
idempotent: a second pass truncates nothing, finds no tags, no dangerous
phrases and no surrounding whitespace, so it returns its input unchanged. -/
theorem sanitize_idempotent (t : List Char) :
    sanitizeText 4000 (sanitizeText 4000 t) = sanitizeText 4000 t := by
  have hlen := sanitizeText_length 4000 t
  have htag := sanitizeText_no_tag 4000 t
  have h1 := sanitizeText_no_first 4000 t
  have h2 := sanitizeText_no_second 4000 t
  have h3 := sanitizeText_no_third 4000 t
  have hstrip := sanitizeText_stripped 4000 t
  show pyStrip (blockSub 'j' "ailbreak".data blockedMark
      (blockSub 's' "ystem prompt".data blockedMark
        (blockSub 'i' "gnore previous instructions".data blockedMark
          (htmlSub (tagBlockSub 's' "tyle".data (tagBlockSub 's' "cript".data
            ((sanitizeText 4000 t).take 4000))))))) = sanitizeText 4000 t
  rw [List.take_of_length_le hlen, tagBlockSub_id (by decide) htag,
    tagBlockSub_id (by decide) htag, htmlSub_id htag, blockSub_id h1,
    blockSub_id h2, blockSub_id h3, hstrip]

/-- C10: in both generations, every successful `POST /chat` response
carries the same string in `response` and `source_agent_response`. -/
theorem chat_response_fields_agree :
    (∀ (env : Gen2Env) (lockTok : List Char) (st : Gen2State) (req : Gen2Request)
        (resp : Gen2ChatResponse),
      (gen2Chat env lockTok st req).1 = .ok resp →
      resp.response = resp.source_agent_response) ∧
    (∀ message : List Char,
      (backendChat message).response = (backendChat message).source_agent_response) := by
  constructor
  · intro env lockTok st req resp h
    unfold gen2Chat at h
    dsimp only at h
    by_cases hr : (!(rateLimitAllow st.rateCount 60).1.1) = true
    · rw [if_pos hr] at h
      simp at h
    · rw [if_neg hr] at h
      rcases ha : acquireLock st.lock lockTok with ⟨tk, lk⟩
      rw [ha] at h
      cases tk with
      | none => simp at h
      | some tok =>
        dsimp only at h
        simp only [Except.ok.injEq] at h
        subst h
        rfl
  · intro message
    unfold backendChat
    by_cases h1 : (routerProcess message).agent = "KnowledgeAgent".data <;>
      by_cases h2 : (routerProcess message).agent = "MathAgent".data <;>
      simp [h1, h2]

/-- Witness for C10: a concrete Generation-2 request that succeeds. -/
theorem chat_response_fields_agree_witness :
    ((gen2Chat ⟨fun _ => "math".data, fun _ => "42".data, fun _ _ => [], fun _ => .ok []⟩
        "tok".data ⟨0, none, freshConv⟩ ⟨"2+2".data, "u".data, "c".data⟩).1 =
      .ok ⟨"42".data, "42".data,
        [⟨"RouterAgent".data, some "MathAgent".data⟩, ⟨"MathAgent".data, none⟩]⟩) ∧
    ("42".data : List Char) = "42".data :=
  ⟨by rfl,
   chat_response_fields_agree.1
      ⟨fun _ => "math".data, fun _ => "42".data, fun _ _ => [], fun _ => .ok []⟩
      "tok".data ⟨0, none, freshConv⟩ ⟨"2+2".data, "u".data, "c".data⟩
      ⟨"42".data, "42".data,
        [⟨"RouterAgent".data, some "MathAgent".data⟩, ⟨"MathAgent".data, none⟩]⟩
      (by rfl)⟩

end Chatbot
